import Mathlib

/-!
Verification of the peeredit RGA (Replicated Growable Array) core.

The definitions below are a shallow embedding of `lib/rga.js` (and, where
noted, its later `AceEditorRGA` variant).  JavaScript node objects are
modelled by records carrying a unique allocation number `uid`, so that the
`Map` from timestamps to node objects (`_index`) can be modelled faithfully
as an association list from timestamps to uids, with `Map.set` overwriting
the value stored at an existing key.  Machine arithmetic (`>>> 16`,
`<< 16`) is modelled on `Int` with explicit wrapping.  Fallible code
returns `Except String`.
-/

deriving instance DecidableEq for Except

namespace Peeredit

/-- var MAX_REPLICA_ID_BITS = 16 -/
def MAX_REPLICA_ID_BITS : Nat := 16

/-- JavaScript ToUint32 for (double-precision) integers. -/
def toUint32 (x : Int) : Int := x % 4294967296

/-- JavaScript ToInt32 for (double-precision) integers. -/
def toInt32 (x : Int) : Int :=
  if x % 4294967296 < 2147483648 then x % 4294967296
  else x % 4294967296 - 4294967296

/-- JavaScript `x >>> 16`. -/
def jsShrU16 (x : Int) : Int := toUint32 x / 65536

/-- JavaScript `x << 16`. -/
def jsShl16 (x : Int) : Int := toInt32 (x * 65536)

/-- The `w` payload of an addRight op: `{timestamp, atom}`. -/
structure Wchar where
  timestamp : Int
  atom : Char
deriving DecidableEq

/-- Wire operations: `{type: "addRight", t, w}` and `{type: "remove", t}`. -/
inductive Op where
  | addRight (t : Int) (w : Wchar)
  | remove (t : Int)
deriving DecidableEq

/-- A linked-list node `{next, timestamp, atom, removed}`.  `next` is
represented positionally (the node list), and `uid` models JavaScript
object identity (allocation order). -/
structure Node where
  uid : Nat
  timestamp : Int
  atom : Char
  removed : Bool
deriving DecidableEq

/-- Replica state of an `RGA` object.  `nodes` is the linked list hanging
off the `left` sentinel, in list order.  `leftRemoved` is the sentinel
node's `removed` flag.  `index` models `_index`: timestamps map to `none`
for the sentinel and `some uid` for ordinary nodes.  `nextTimestamp` and
`nextUid` model `_nextTimestamp` and the object allocator. -/
structure Replica where
  id : Nat
  nodes : List Node
  leftRemoved : Bool
  index : List (Int × Option Nat)
  nextTimestamp : Int
  nextUid : Nat
deriving DecidableEq

/-- `Map.get`. -/
def idxLookup (idx : List (Int × Option Nat)) (t : Int) : Option (Option Nat) :=
  match idx with
  | [] => none
  | (k, v) :: rest => if k = t then some v else idxLookup rest t

/-- `Map.set` (overwrites the value at an existing key). -/
def idxSet (idx : List (Int × Option Nat)) (t : Int) (v : Option Nat) :
    List (Int × Option Nat) :=
  match idx with
  | [] => [(t, v)]
  | (k, w) :: rest => if k = t then (t, v) :: rest else (k, w) :: idxSet rest t v

/-- A freshly constructed `new RGA(id)` (before history replay):
`left` has timestamp `-1`, the index contains only the sentinel, and
`_nextTimestamp = id`. -/
def mkRGA (id : Nat) : Replica :=
  { id := id, nodes := [], leftRemoved := false, index := [(-1, none)],
    nextTimestamp := (id : Int), nextUid := 0 }

/-- Position of the node object with allocation number `u` in the list. -/
def uidPos (nodes : List Node) (u : Nat) : Option Nat :=
  match nodes with
  | [] => none
  | n :: rest => if n.uid = u then some 0 else (uidPos rest u).map (fun i => i + 1)

/-- A placeholder node, only used as the default of `List.getD` at
positions proved to be in range. -/
def defaultNode : Node := { uid := 0, timestamp := 0, atom := ' ', removed := false }

/-- The successor-walk of `_downstream_addRight`:
`while (pred.next && w.timestamp < pred.next.timestamp) pred = pred.next`,
followed by the splice.  The argument list is the chain of successors of
`pred`; the new node is placed before the first successor whose timestamp
is not greater than the new timestamp.  `mkNode` is the spliced node
`{next, timestamp: w.timestamp, atom: w.atom, removed: false}`. -/
def mkNode (w : Wchar) (u : Nat) : Node :=
  { uid := u, timestamp := w.timestamp, atom := w.atom, removed := false }

/-- See `insTs`. -/
def insTs (w : Wchar) (u : Nat) : List Node → List Node
  | [] => [mkNode w u]
  | n :: rest =>
    if w.timestamp < n.timestamp then n :: insTs w u rest
    else mkNode w u :: n :: rest

/-- Number of nodes after the predecessor (its whole successor chain) that
the insertion walk of `_downstream_addRight` steps over. -/
def skipBigger (wts : Int) : List Node → Nat
  | [] => 0
  | n :: rest => if wts < n.timestamp then skipBigger wts rest + 1 else 0

/-- Resolve an index entry to the position of the first successor of the
looked-up node: `0` for the sentinel, `i + 1` for the node at position `i`. -/
def predPos (r : Replica) (pv : Option Nat) : Except String Nat :=
  match pv with
  | none => .ok 0
  | some u =>
    match uidPos r.nodes u with
    | none => .error "internal: index uid not in the node list"
    | some i => .ok (i + 1)

/-- `_downstream_addRight` of `lib/rga.js`: advance `_nextTimestamp` past
observed timestamps, look up the predecessor in the index, walk past
successors with larger timestamps and splice in a new node. -/
def downstreamAddRight (r : Replica) (t : Int) (w : Wchar) : Except String Replica :=
  let nt : Int :=
    if r.nextTimestamp ≤ w.timestamp
    then jsShl16 (jsShrU16 w.timestamp + 1) + (r.id : Int)
    else r.nextTimestamp
  match idxLookup r.index t with
  | none => .error "downstream: cannot add next to unknown element"
  | some pv =>
    match predPos r pv with
    | .error e => .error e
    | .ok p =>
      .ok { r with
        nodes := r.nodes.take p ++ insTs w r.nextUid (r.nodes.drop p),
        index := idxSet r.index w.timestamp (some r.nextUid),
        nextTimestamp := nt,
        nextUid := r.nextUid + 1 }

/-- `_downstream_remove` of `lib/rga.js` (the variant that raises an error
when the element is already removed). -/
def downstreamRemove (r : Replica) (t : Int) : Except String Replica :=
  match idxLookup r.index t with
  | none => .error "downstream: cannot remove unknown element"
  | some none =>
    if r.leftRemoved then .error "downstream: element already removed"
    else .ok { r with leftRemoved := true }
  | some (some u) =>
    match uidPos r.nodes u with
    | none => .error "internal: index uid not in the node list"
    | some i =>
      if (r.nodes.getD i defaultNode).removed then
        .error "downstream: element already removed"
      else
        .ok { r with nodes :=
          r.nodes.set i { r.nodes.getD i defaultNode with removed := true } }

/-- `_downstream_remove` of the later `AceEditorRGA` variant of rga.js
(`src/unnamed/part_003`), which has no already-removed check: re-removal
is a silent no-op. -/
def downstreamRemoveP3 (r : Replica) (t : Int) : Except String Replica :=
  match idxLookup r.index t with
  | none => .error "downstream: cannot remove unknown element"
  | some none => .ok { r with leftRemoved := true }
  | some (some u) =>
    match uidPos r.nodes u with
    | none => .error "internal: index uid not in the node list"
    | some i =>
      .ok { r with nodes :=
        r.nodes.set i { r.nodes.getD i defaultNode with removed := true } }

/-- `_downstream`, restricted to its state effect on one replica (the
broadcast to subscribers is modelled at the call sites). -/
def applyOp (r : Replica) (op : Op) : Except String Replica :=
  match op with
  | .addRight t w => downstreamAddRight r t w
  | .remove t => downstreamRemove r t

/-- `_timestamp()`: mint a local timestamp and bump `_nextTimestamp`. -/
def mint (r : Replica) : Int × Replica :=
  (r.nextTimestamp, { r with nextTimestamp := r.nextTimestamp + 65536 })

/-- `_lookup(t)`: the timestamp denotes a present, not-removed node. -/
def lookupLive (r : Replica) (t : Int) : Bool :=
  match idxLookup r.index t with
  | none => false
  | some none => !r.leftRemoved
  | some (some u) =>
    match uidPos r.nodes u with
    | none => false
    | some i => !(r.nodes.getD i defaultNode).removed

/-- Whether the node an index entry resolves to is removed (used by the
precondition check of the public `addRight`). -/
def predRemoved (r : Replica) (pv : Option Nat) : Bool :=
  match pv with
  | none => r.leftRemoved
  | some u =>
    match uidPos r.nodes u with
    | none => false
    | some i => (r.nodes.getD i defaultNode).removed

/-- Public `addRight(t, a)`: check the precondition, mint a timestamp,
apply the op downstream, return the new timestamp with the new state. -/
def addRight (r : Replica) (t : Int) (a : Char) : Except String (Replica × Int) :=
  match idxLookup r.index t with
  | none => .error "insertion point is not in the array"
  | some pv =>
    if predRemoved r pv then .error "insertion point is removed from the array"
    else
      let (ts, r1) := mint r
      match downstreamAddRight r1 t { timestamp := ts, atom := a } with
      | .error e => .error e
      | .ok r2 => .ok (r2, ts)

/-- Public `remove(t)`: check `_lookup(t)`, then apply downstream. -/
def remove (r : Replica) (t : Int) : Except String Replica :=
  if lookupLive r t then downstreamRemove r t
  else .error "cannot remove node that does not exist"

/-- Atoms of the non-removed nodes of a list, in order. -/
def textNodes (l : List Node) : List Char :=
  (l.filter (fun n => !n.removed)).map (fun n => n.atom)

/-- `text()`: atoms of non-removed nodes in list order. -/
def text (r : Replica) : List Char := textNodes r.nodes

/-- `history()`, accumulating over the node list: each node contributes an
addRight op naming its predecessor, plus a remove op if it is a tombstone. -/
def historyFrom (prevTs : Int) : List Node → List Op
  | [] => []
  | n :: rest =>
    Op.addRight prevTs { timestamp := n.timestamp, atom := n.atom }
      :: ((if n.removed then [Op.remove n.timestamp] else [])
           ++ historyFrom n.timestamp rest)

/-- `history()`. -/
def history (r : Replica) : List Op := historyFrom (-1) r.nodes

/-- Sequential downstream application of a list of ops (history replay). -/
def applyOps (r : Replica) : List Op → Except String Replica
  | [] => .ok r
  | op :: rest =>
    match applyOp r op with
    | .error e => .error e
    | .ok r2 => applyOps r2 rest

/-- `new RGA(id, history)`: validate the id, then replay the history. -/
def newReplica (id : Nat) (h : List Op) : Except String Replica :=
  if id < 65536 then applyOps (mkRGA id) h
  else .error "RGA constructor: first argument is not a valid id"

/-- The observable content of a node (timestamp, atom, tombstone flag);
`uid` is an artefact of the embedding. -/
def projNode (n : Node) : Int × Char × Bool := (n.timestamp, n.atom, n.removed)

/-- Observable node list. -/
def projNodes (l : List Node) : List (Int × Char × Bool) := l.map projNode

/-- The op payload recorded for one node by `history()`. -/
def wcharOf (n : Node) : Wchar := { timestamp := n.timestamp, atom := n.atom }

/-- The replica state after one step of the `insertRowColumn` typing loop:
a freshly minted timestamp is spliced in right at position `p` (the fresh
timestamp exceeds every present one, so the sibling walk skips nothing). -/
def afterIns (r : Replica) (ch : Char) (p : Nat) : Replica :=
  { r with
    nodes := r.nodes.take p
      ++ mkNode { timestamp := r.nextTimestamp, atom := ch } r.nextUid
          :: r.nodes.drop p,
    index := idxSet r.index r.nextTimestamp (some r.nextUid),
    nextTimestamp := r.nextTimestamp + 65536,
    nextUid := r.nextUid + 1 }

/-- Well-formedness of a replica state: the sentinel is indexed, every
node's timestamp is indexed to its uid and found at its list position,
and all timestamps and uids lie below the mint counters. -/
def wellFormed (r : Replica) : Prop :=
  idxLookup r.index (-1) = some none ∧
  (∀ i, i < r.nodes.length →
    idxLookup r.index ((r.nodes.getD i defaultNode).timestamp)
      = some (some ((r.nodes.getD i defaultNode).uid)) ∧
    uidPos r.nodes ((r.nodes.getD i defaultNode).uid) = some i) ∧
  (∀ n ∈ r.nodes, n.timestamp < r.nextTimestamp) ∧
  (∀ n ∈ r.nodes, n.uid < r.nextUid)

/-- The replica state after a `_downstream_addRight` that appends its node
at the end of the list (the case arising in history replay), with the
tombstone flag `rm` of the subsequent `_downstream_remove` folded in. -/
def afterAdd (s : Replica) (w : Wchar) (rm : Bool) : Replica :=
  { s with
    nodes := s.nodes ++ [{ mkNode w s.nextUid with removed := rm }],
    index := idxSet s.index w.timestamp (some s.nextUid),
    nextTimestamp :=
      if s.nextTimestamp ≤ w.timestamp
      then jsShl16 (jsShrU16 w.timestamp + 1) + (s.id : Int)
      else s.nextTimestamp,
    nextUid := s.nextUid + 1 }

/-! ### The diff engine (`RGA.diff`, Hunt and McIlroy style) -/

/-- Normalisation of a `String.prototype.slice` argument against a string
of length `n`: negative values count from the end, and the result is
clamped into `[0, n]`. -/
def jsNorm (n v : Int) : Int := if v < 0 then max (n + v) 0 else min v n

/-- JavaScript `String.prototype.slice` on a character list. -/
def jsSlice (s : List Char) (st en : Int) : List Char :=
  (s.take (jsNorm s.length en).toNat).drop (jsNorm s.length st).toNat

/-- `charAt` for in-range indices. -/
def charAtD (s : List Char) (i : Nat) : Char := s.getD i (Char.ofNat 0)

/-- `map_of_b[ch]`: the ascending list of positions of `ch` in `b`. -/
def matchesInB (b : List Char) (ch : Char) : List Nat :=
  (List.range b.length).filter (fun j => charAtD b j = ch)

/-- Length of the diagonal run of matches ending at positions `(i, j)`:
the largest `k` with `a.charAt(i - t) = b.charAt(j - t)` for all `t < k`
(and `0` when even the pair `(i, j)` mismatches).  This is the quantity
the `runs` map of `find_longest_common_slice` computes. -/
def runLen (a b : List Char) : Nat → Nat → Nat
  | 0, j => if charAtD a 0 = charAtD b j then 1 else 0
  | i + 1, 0 => if charAtD a (i + 1) = charAtD b 0 then 1 else 0
  | i + 1, j + 1 =>
    if charAtD a (i + 1) = charAtD b (j + 1) then runLen a b i j + 1 else 0

/-- The value of the `runs` map after the outer loop has processed the
first `n` characters of `a`: the run ending at `(n - 1, j)`, or `0` when
`j` did not match the last processed character. -/
def runsFun (a b : List Char) (n j : Nat) : Nat :=
  if 1 ≤ n ∧ j < b.length ∧ charAtD a (n - 1) = charAtD b j
  then runLen a b (n - 1) j else 0

/-- The `result` record of `find_longest_common_slice`. -/
structure CommonSlice where
  a_start : Int
  b_start : Int
  length : Nat
deriving DecidableEq

/-- One step of the inner loop of `find_longest_common_slice`: extend the
run ending at `j - 1` (`runs[j-1] || 0`), record it in `new_runs`, and
update `result` if the run is the longest so far. -/
def lcsInner (runs : Nat → Nat) (i : Nat) (st : (Nat → Nat) × CommonSlice)
    (j : Nat) : (Nat → Nat) × CommonSlice :=
  let k := (if j = 0 then 0 else runs (j - 1)) + 1
  let nr := Function.update st.1 j k
  let res :=
    if st.2.length < k then
      { a_start := (i : Int) - k + 1, b_start := (j : Int) - k + 1, length := k }
    else st.2
  (nr, res)

/-- One step of the outer loop of `find_longest_common_slice`: process the
character `a.charAt(i)`, folding over its match positions in `b`; `runs`
is replaced by `new_runs` (starting from an empty map). -/
def lcsOuter (a b : List Char) (st : (Nat → Nat) × CommonSlice) (i : Nat) :
    (Nat → Nat) × CommonSlice :=
  (matchesInB b (charAtD a i)).foldl (lcsInner st.1 i) ((fun _ => 0), st.2)

/-- The state of `find_longest_common_slice` after the scan of `a`. -/
def lcsState (a b : List Char) : (Nat → Nat) × CommonSlice :=
  (List.range a.length).foldl (lcsOuter a b)
    ((fun _ => 0), { a_start := 0, b_start := 0, length := 0 })

/-- The scan state after the first `n` outer iterations (so
`lcsState a b = lcsIter a b a.length`). -/
def lcsIter (a b : List Char) (n : Nat) : (Nat → Nat) × CommonSlice :=
  (List.range n).foldl (lcsOuter a b)
    ((fun _ => 0), { a_start := 0, b_start := 0, length := 0 })

/-- `find_longest_common_slice`, including its final sanity check, which
throws `algorithm failed` when the recorded slices disagree. -/
def findLongestCommonSlice (a b : List Char) : Except String CommonSlice :=
  let res := (lcsState a b).2
  if jsSlice a res.a_start (res.a_start + res.length)
       = jsSlice b res.b_start (res.b_start + res.length)
  then .ok res
  else .error "algorithm failed"

/-- Patch operations of a Quill-style delta: `{retain: n}`, `{delete: n}`,
`{insert: s}`. -/
inductive PatchOp where
  | retain (n : Nat)
  | del (n : Nat)
  | insert (s : List Char)
deriving DecidableEq

/-- `compare` of `RGA.diff`, with an explicit recursion budget so the
definition is structurally recursive (the recursion of the source is on
ever-shorter strings; `a.length + 1` budget always suffices, which is
proved below, so the `fuel exhausted` branch is unreachable): recursively
split around the longest common slice, emitting `retain` in the middle,
and `delete`/`insert` when the strings share no character. -/
def comparePatchF : Nat → List Char → List Char → Except String (List PatchOp)
  | 0, _, _ => .error "fuel exhausted"
  | fuel + 1, a, b =>
    if a = b then .ok []
    else
      match findLongestCommonSlice a b with
      | .error e => .error e
      | .ok m =>
        if m.length = 0 then
          .ok ((if a = [] then [] else [PatchOp.del a.length])
                ++ (if b = [] then [] else [PatchOp.insert b]))
        else
          match comparePatchF fuel (jsSlice a 0 m.a_start) (jsSlice b 0 m.b_start),
                comparePatchF fuel (jsSlice a (m.a_start + m.length) (a.length : Int))
                             (jsSlice b (m.b_start + m.length) (b.length : Int)) with
          | .error e, _ => .error e
          | .ok _, .error e => .error e
          | .ok p1, .ok p2 => .ok (p1 ++ PatchOp.retain m.length :: p2)

/-- `compare(s0, s1, 0, patch)` of `RGA.diff`. -/
def comparePatch (a b : List Char) : Except String (List PatchOp) :=
  comparePatchF (a.length + 1) a b

/-- `RGA.diff(s0, s1)`: the `ops` list of the returned patch. -/
def diff (s0 s1 : List Char) : Except String (List PatchOp) := comparePatch s0 s1

/-- Modelled from the spec (the patch semantics named by the claim):
`retain n` copies the next `n` characters of the input, `delete n` skips
the next `n` characters, `insert s` emits `s`; input left over at the end
of the patch is kept. -/
def applyPatch : List PatchOp → List Char → List Char
  | [], s => s
  | .retain n :: rest, s => s.take n ++ applyPatch rest (s.drop n)
  | .del n :: rest, s => applyPatch rest (s.drop n)
  | .insert str :: rest, s => str ++ applyPatch rest s

/-- `applyPatch` split into produced output and unconsumed input. -/
def runPatch : List PatchOp → List Char → List Char × List Char
  | [], s => ([], s)
  | .retain n :: rest, s =>
    let pr := runPatch rest (s.drop n)
    (s.take n ++ pr.1, pr.2)
  | .del n :: rest, s => runPatch rest (s.drop n)
  | .insert str :: rest, s =>
    let pr := runPatch rest s
    (str ++ pr.1, pr.2)

/-! ### Row/column helpers and `insertRowColumn` -/

/-- The counter update of the row/column walks: skip tombstones, count a
newline as a row break, anything else as one column.  The column is an
`Int` because `getRowColumnAfter` starts it at `-1`. -/
def advRC (removed : Bool) (atom : Char) (rc : Nat × Int) : Nat × Int :=
  if !removed then
    (if atom = '\n' then (rc.1 + 1, 0) else (rc.1, rc.2 + 1))
  else rc

/-- `getNodeAt(line, column)` walk: starting from `left` (timestamp `-1`),
advance while the accumulated position is before the target, returning the
timestamp of the node reached; advancing past the end of the list is the
JavaScript `TypeError` on `undefined.removed`. -/
def getNodeAtAux (line col : Nat) : List Node → Int → Nat → Nat → Except String Int
  | [], curTs, l, c =>
    if l < line ∨ (l = line ∧ c < col) then
      .error "TypeError: cannot read removed of undefined"
    else .ok curTs
  | n :: rest, curTs, l, c =>
    if l < line ∨ (l = line ∧ c < col) then
      if !n.removed then
        if n.atom = '\n' then getNodeAtAux line col rest n.timestamp (l + 1) 0
        else getNodeAtAux line col rest n.timestamp l (c + 1)
      else getNodeAtAux line col rest n.timestamp l c
    else .ok curTs

/-- `getNodeAt(line, column).timestamp`. -/
def getNodeAtTs (r : Replica) (line col : Nat) : Except String Int :=
  getNodeAtAux line col r.nodes (-1) 0 0

/-- Walk of `getRowColumnBefore`: count positions of non-removed nodes
before the target node (identified by uid). -/
def rowColBeforeAux (tu : Nat) : List Node → Nat → Nat → Except String (Nat × Nat)
  | [], _, _ => .error "TypeError: target not reachable from left"
  | n :: rest, r, c =>
    if n.uid = tu then .ok (r, c)
    else if !n.removed then
      if n.atom = '\n' then rowColBeforeAux tu rest (r + 1) 0
      else rowColBeforeAux tu rest r (c + 1)
    else rowColBeforeAux tu rest r c

/-- `getRowColumnBefore(t)` of the `tieToAceEditor` variant of rga.js. -/
def getRowColumnBefore (rep : Replica) (t : Int) : Except String (Nat × Nat) :=
  if t = -1 then .error "no position before the left edge of the document"
  else
    match idxLookup rep.index t with
    | none => .error "timestamp not present in document"
    | some none => .error "internal: non-sentinel timestamp resolved to the sentinel"
    | some (some u) => rowColBeforeAux u rep.nodes 0 0

/-- Walk of `getRowColumnAfter`: advance through each node up to and
including the target, returning the position and the remaining chain. -/
def rowColAfterFind (tu : Nat) : List Node → (Nat × Int) →
    Except String ((Nat × Int) × List Node)
  | [], _ => .error "TypeError: target not reachable from left"
  | n :: rest, rc =>
    let rc2 := advRC n.removed n.atom rc
    if n.uid = tu then .ok (rc2, rest) else rowColAfterFind tu rest rc2

/-- The initial position of the `getRowColumnAfter` walks: `r = 0`,
`c = -1`, then the `left` sentinel itself is advanced over (its atom is
`undefined`, never a newline). -/
def rcAfterLeft (rep : Replica) : Nat × Int :=
  advRC rep.leftRemoved (Char.ofNat 0) (0, -1)

/-- `getRowColumnAfter(t)` of the `tieToAceEditor` variant of rga.js
(single argument: no sibling walk). -/
def getRowColumnAfter (rep : Replica) (t : Int) : Except String (Nat × Int) :=
  match idxLookup rep.index t with
  | none => .error "timestamp not present in document"
  | some none => .ok (rcAfterLeft rep)
  | some (some u) =>
    match rowColAfterFind u rep.nodes (rcAfterLeft rep) with
    | .error e => .error e
    | .ok (rc, _) => .ok rc

/-- The sibling walk of the two-argument `getRowColumnAfter` of the
`AceEditorRGA` variant (`src/unnamed/part_003`):
`while (node.next && wt < node.next.timestamp) { node = node.next; advance(node); }`. -/
def rowColSkipWalk (wt : Int) : List Node → (Nat × Int) → (Nat × Int)
  | [], rc => rc
  | n :: rest, rc =>
    if wt < n.timestamp then rowColSkipWalk wt rest (advRC n.removed n.atom rc)
    else rc

/-- `getRowColumnAfter(t, wt)` of the `AceEditorRGA` variant
(`src/unnamed/part_003`): walk to the predecessor, then past
already-present nodes with timestamps above `wt`. -/
def getRowColumnAfter2 (rep : Replica) (t wt : Int) : Except String (Nat × Int) :=
  match idxLookup rep.index t with
  | none => .error "timestamp not present in document"
  | some none => .ok (rowColSkipWalk wt rep.nodes (rcAfterLeft rep))
  | some (some u) =>
    match rowColAfterFind u rep.nodes (rcAfterLeft rep) with
    | .error e => .error e
    | .ok (rc, rest) => .ok (rowColSkipWalk wt rest rc)

/-- The advance step of the row/column walks folded over a node list. -/
def advNodes : List Node → (Nat × Int) → (Nat × Int)
  | [], rc => rc
  | n :: rest, rc => advNodes rest (advRC n.removed n.atom rc)

/-- Modelled from the spec: the row/column reached after reading a list of
characters starting at row `a`, column `b` — a newline starts a new row at
column zero, any other character advances the column. -/
def posRCacc : List Char → Nat → Nat → Nat × Nat
  | [], a, b => (a, b)
  | ch :: rest, a, b =>
    if ch = '\n' then posRCacc rest (a + 1) 0 else posRCacc rest a (b + 1)

/-- Modelled from the spec: the row/column of a character offset, counting
from row 0, column 0. -/
def posRC (chars : List Char) : Nat × Nat := posRCacc chars 0 0

/-- The typing loop of `insertRowColumn`: for each character, mint a
timestamp, apply the addRight downstream, and chain the new timestamp as
the next anchor. -/
def insertChars (r : Replica) (u : Int) : List Char → Except String Replica
  | [] => .ok r
  | ch :: rest =>
    let (ts, r1) := mint r
    match downstreamAddRight r1 u { timestamp := ts, atom := ch } with
    | .error e => .error e
    | .ok r2 => insertChars r2 ts rest

/-- `insertRowColumn(source, line, column, text)`. -/
def insertRowColumn (r : Replica) (line col : Nat) (s : List Char) :
    Except String Replica :=
  match getNodeAtTs r line col with
  | .error e => .error e
  | .ok u => insertChars r u s

/-- The `type` helper of the test suite: type a string with the public
`addRight`, threading the cursor. -/
def typeString (r : Replica) (cur : Int) : List Char → Except String (Replica × Int)
  | [] => .ok (r, cur)
  | c :: rest =>
    match addRight r cur c with
    | .error e => .error e
    | .ok (r2, ts) => typeString r2 ts rest

/-! ### The Ace editor model and `tieToAceEditor` reconciliation

The editor is the `MockAceEditor` of `src/test/test_editor.js`: a list of
lines whose value is their newline join; `insert` and `remove` are the
splice operations of that class.  The reconciliation state and handlers
are those of `RGA.tieToAceEditor` in `lib/rga.js` (the diff-based
variant): a shadow replica `er` (`editorReplica`), the `lastText`
snapshot, and a count of queued editor change events (each queued event
fires `takeUserEdits`; writes made with editor callbacks disabled enqueue
nothing). -/

/-- `text.split(/\n/g)`; the empty string splits to one empty line. -/
def splitNL : List Char → List (List Char)
  | [] => [[]]
  | c :: rest =>
    match splitNL rest with
    | [] => [[]]
    | l :: ls => if c = '\n' then [] :: l :: ls else (c :: l) :: ls

/-- `lines.join("\n")`. -/
def joinLines : List (List Char) → List Char
  | [] => []
  | [l] => l
  | l :: rest => l ++ '\n' :: joinLines rest

/-- `MockAceEditor.insert({row, column}, s)`. -/
def editorInsert (lines : List (List Char)) (row : Nat) (col : Int)
    (s : List Char) : List (List Char) :=
  let line := lines.getD row []
  let edited := jsSlice line 0 col ++ s ++ jsSlice line col (line.length : Int)
  lines.take row ++ splitNL edited ++ lines.drop (row + 1)

/-- `MockAceEditor.remove({start, end})`. -/
def editorRemove (lines : List (List Char)) (sr sc endRow ec : Nat) :
    List (List Char) :=
  let preStart := (lines.getD sr []).take sc
  let postEnd := (lines.getD endRow []).drop ec
  lines.take sr ++ [preStart ++ postEnd] ++ lines.drop (endRow + 1)

/-- The state owned by `RGA.tieToAceEditor`. -/
structure EditorSync where
  rga : Replica
  er : Replica
  lines : List (List Char)
  lastText : List Char
  pending : Nat
deriving DecidableEq

/-- The `retain` loop of `applyDelta`: move the cursor past `n`
non-removed nodes. -/
def retainWalk : List Node → Nat → Int → Except String (Int × List Node)
  | [], n, lastTs =>
    if n = 0 then .ok (lastTs, [])
    else .error "TypeError: cannot read removed of undefined"
  | nd :: rest, n, lastTs =>
    if n = 0 then .ok (lastTs, nd :: rest)
    else if !nd.removed then retainWalk rest (n - 1) nd.timestamp
    else retainWalk rest n lastTs

/-- The `delete` loop of `applyDelta`: issue a remove op for each of the
next `n` non-removed nodes, applying it to the editor replica and (tie
broadcast) to the main replica. -/
def deleteWalk (er rga : Replica) : List Node → Nat → Int →
    Except String (Replica × Replica × Int × List Node)
  | [], n, lastTs =>
    if n = 0 then .ok (er, rga, lastTs, [])
    else .error "TypeError: cannot read next of undefined"
  | nd :: rest, n, lastTs =>
    if n = 0 then .ok (er, rga, lastTs, nd :: rest)
    else if !nd.removed then
      match downstreamRemove er nd.timestamp with
      | .error e => .error e
      | .ok er2 =>
        match applyOp rga (.remove nd.timestamp) with
        | .error e => .error e
        | .ok rga2 => deleteWalk er2 rga2 rest (n - 1) nd.timestamp
    else deleteWalk er rga rest n lastTs

/-- The `insert` loop of `applyDelta`: insert each character after the
cursor, chaining timestamps, applying each op to the editor replica and
(tie broadcast) to the main replica. -/
def insertChainTied (er rga : Replica) (t : Int) :
    List Char → Except String (Replica × Replica × Int)
  | [] => .ok (er, rga, t)
  | ch :: rest =>
    let (ts, er1) := mint er
    match downstreamAddRight er1 t { timestamp := ts, atom := ch } with
    | .error e => .error e
    | .ok er2 =>
      match applyOp rga (.addRight t { timestamp := ts, atom := ch }) with
      | .error e => .error e
      | .ok rga2 => insertChainTied er2 rga2 ts rest

/-- `applyDelta` of the editor replica, with the tie to the main replica:
walk the node list in step with the patch; the cursor is the timestamp of
`lastNode` plus the chain of nodes after the current `node`. -/
def applyDeltaTied (er rga : Replica) :
    List PatchOp → List Node → Int → Except String (Replica × Replica)
  | [], _, _ => .ok (er, rga)
  | .retain n :: ops, chain, lastTs =>
    match retainWalk chain n lastTs with
    | .error e => .error e
    | .ok (lt2, chain2) => applyDeltaTied er rga ops chain2 lt2
  | .del n :: ops, chain, lastTs =>
    match deleteWalk er rga chain n lastTs with
    | .error e => .error e
    | .ok (er2, rga2, lt2, chain2) => applyDeltaTied er2 rga2 ops chain2 lt2
  | .insert str :: ops, chain, lastTs =>
    match insertChainTied er rga lastTs str with
    | .error e => .error e
    | .ok (er2, rga2, tF) =>
      match idxLookup er2.index tF with
      | none => .error "internal: cursor timestamp missing from index"
      | some none => applyDeltaTied er2 rga2 ops er2.nodes tF
      | some (some u) =>
        match uidPos er2.nodes u with
        | none => .error "internal: index uid not in the node list"
        | some i => applyDeltaTied er2 rga2 ops (er2.nodes.drop (i + 1)) tF

/-- `takeUserEdits()`: if the editor text moved away from `lastText`,
assert the editor replica is at `lastText`, diff, replay the patch onto
the editor replica (broadcasting to the main replica), update `lastText`,
and assert again. -/
def takeUserEdits (s : EditorSync) : Except String EditorSync :=
  let current := joinLines s.lines
  if current = s.lastText then .ok s
  else if s.lastText = text s.er then
    match diff s.lastText current with
    | .error e => .error e
    | .ok patch =>
      match applyDeltaTied s.er s.rga patch s.er.nodes (-1) with
      | .error e => .error e
      | .ok (er2, rga2) =>
        if current = text er2 then
          .ok { s with er := er2, rga := rga2, lastText := current }
        else .error "editor and RGA data structure got out of sync"
  else .error "editor and RGA data structure got out of sync"

/-- `applyOpToEditor(op)` of `tieToAceEditor`: mutate the editor (with
its change callbacks disabled, so no event is queued), looking positions
up in the main replica, which has already integrated `op`. -/
def applyOpToEditor (s : EditorSync) (op : Op) : Except String EditorSync :=
  match op with
  | .addRight t w =>
    match getRowColumnAfter s.rga t with
    | .error e => .error e
    | .ok (r, c) => .ok { s with lines := editorInsert s.lines r c [w.atom] }
  | .remove t =>
    match getRowColumnBefore s.rga t with
    | .error e => .error e
    | .ok (r, c) =>
      if r < s.lines.length then
        let lines2 :=
          if (s.lines.getD r []).length = c
          then editorRemove s.lines r c (r + 1) 0
          else editorRemove s.lines r c r (c + 1)
        .ok { s with lines := lines2 }
      else .error "TypeError: cannot read length of undefined"

/-- Delivery of a remote op: the main replica integrates it and its
broadcast invokes the replaced sink `rgaToEditor`, which drains pending
user edits first, then mutates the editor, then the editor replica, and
re-snapshots `lastText`. -/
def deliverRemote (s : EditorSync) (op : Op) : Except String EditorSync :=
  match applyOp s.rga op with
  | .error e => .error e
  | .ok rga2 =>
    match takeUserEdits { s with rga := rga2 } with
    | .error e => .error e
    | .ok s1 =>
      match applyOpToEditor s1 op with
      | .error e => .error e
      | .ok s2 =>
        match applyOp s2.er op with
        | .error e => .error e
        | .ok er2 =>
          let s3 := { s2 with er := er2, lastText := joinLines s2.lines }
          if s3.lastText = text s3.er then .ok s3
          else .error "editor and RGA data structure got out of sync"

/-- A user edit made directly in the editor: the mutation happens now,
the change event is queued for later delivery. -/
def userRemove (s : EditorSync) (sr sc endRow ec : Nat) : EditorSync :=
  { s with lines := editorRemove s.lines sr sc endRow ec,
           pending := s.pending + 1 }

/-- Fire `n` queued editor change events (each runs `takeUserEdits`). -/
def fireEvents : Nat → EditorSync → Except String EditorSync
  | 0, s => .ok s
  | n + 1, s =>
    match takeUserEdits s with
    | .error e => .error e
    | .ok s2 => fireEvents n s2

/-- Drain the editor event queue. -/
def drainQueue (s : EditorSync) : Except String EditorSync :=
  fireEvents s.pending { s with pending := 0 }

/-- `RGA.tieToAceEditor(rga, editor)` setup: build the editor replica from
the history, seed the editor and `lastText` with the replica text (the
`setValue` happens before the change handler is attached, so nothing is
queued). -/
def tieToAceEditor (rga : Replica) : Except String EditorSync :=
  match newReplica rga.id (history rga) with
  | .error e => .error e
  | .ok er =>
    .ok { rga := rga, er := er, lines := splitNL (text rga),
          lastText := text rga, pending := 0 }

/-! ### Concrete scenario states -/

/-- Replicas `p` (id 0) and `q` (id 1), initially empty, where `p` types
`X` and `q` types `Y` at the left edge before either op is delivered, and
then each op is delivered to the other replica. -/
def concurrentInsertScenario : Except String (Replica × Replica) := do
  let (p, tp) ← addRight (mkRGA 0) (-1) 'X'
  let (q, tq) ← addRight (mkRGA 1) (-1) 'Y'
  let p2 ← applyOp p (.addRight (-1) { timestamp := tq, atom := 'Y' })
  let q2 ← applyOp q (.addRight (-1) { timestamp := tp, atom := 'X' })
  pure (p2, q2)

/-- Replica 0 containing `grin` (the final `n` has timestamp
`3 * 65536`), and a replica 1 built from its history; each locally removes
the final `n` before delivery. -/
def concurrentRemoveScenario : Except String (Replica × Replica) := do
  let (p, lastTs) ← typeString (mkRGA 0) (-1) "grin".toList
  let q ← newReplica 1 (history p)
  let p2 ← remove p lastTs
  let q2 ← remove q lastTs
  pure (p2, q2)

/-- Replica 0 typing `HOME RUN` (the space has timestamp `4 * 65536` and
its predecessor `E` has timestamp `3 * 65536`). -/
def homeRunSource : Except String (Replica × Int) :=
  typeString (mkRGA 0) (-1) "HOME RUN".toList

/-- The slow-editor scenario: an editor-tied replica (id 1) holding
`HOME RUN`; the user deletes the space directly in the editor (change
event still queued); the remote `addRight` of `*` anchored after `E` is
delivered; finally the stale editor event is drained.  Returns the state
after the delivery and the state after the drain. -/
def slowEditorScenario : Except String (EditorSync × EditorSync) := do
  let (x, _) ← homeRunSource
  let y ← newReplica 1 (history x)
  let s0 ← tieToAceEditor y
  let s1 := userRemove s0 0 4 0 5
  let s2 ← deliverRemote s1 (.addRight (3 * 65536) { timestamp := 8 * 65536, atom := '*' })
  let s3 ← drainQueue s2
  pure (s2, s3)

/-- A duplicated addRight delivery: the op `addRight(LEFT, {5, X})`
integrated once, and then integrated a second time into the result. -/
def dupAddOnce : Except String Replica :=
  applyOp (mkRGA 0) (.addRight (-1) { timestamp := 5, atom := 'X' })

/-- See `dupAddOnce`. -/
def dupAddTwice : Except String Replica :=
  dupAddOnce.bind (fun r => applyOp r (.addRight (-1) { timestamp := 5, atom := 'X' }))

/-- The state after `dupAddOnce` (used as a concrete instance). -/
def dupR2 : Replica :=
  { id := 0, nodes := [{ uid := 0, timestamp := 5, atom := 'X', removed := false }],
    leftRemoved := false, index := [(-1, none), (5, some 0)],
    nextTimestamp := 65536, nextUid := 1 }

/-- A concrete replica holding a single tombstoned node with timestamp 5. -/
def tombR : Replica :=
  { id := 0, nodes := [{ uid := 0, timestamp := 5, atom := 'X', removed := true }],
    leftRemoved := false, index := [(-1, none), (5, some 0)],
    nextTimestamp := 65536, nextUid := 1 }

/-- A fresh replica with its counter advanced to an arbitrary value (the
state reached by a replica that has minted or observed timestamps). -/
def replicaAt (idl : Nat) (nt : Int) : Replica :=
  { id := idl, nodes := [], leftRemoved := false, index := [(-1, none)],
    nextTimestamp := nt, nextUid := 0 }

/-- Does this op target the sentinel with a remove? -/
def isRemoveLeft : Op → Bool
  | .remove t => t = -1
  | .addRight _ _ => false

/-- Index well-formedness used by the sentinel invariant: only the
timestamp `-1` may resolve to the sentinel. -/
def SentinelOnlyLeft (r : Replica) : Prop :=
  ∀ t, idxLookup r.index t = some none → t = -1

/-! ### Lemmas -/

/-- `Map.set` then `Map.get`. -/
theorem idxLookup_idxSet (idx : List (Int × Option Nat)) (k : Int)
    (v : Option Nat) (t : Int) :
    idxLookup (idxSet idx k v) t = if t = k then some v else idxLookup idx t := by
  induction idx with
  | nil =>
    by_cases h : t = k
    · simp [idxSet, idxLookup, h]
    · simp [idxSet, idxLookup, h, Ne.symm h]
  | cons hd tl ih =>
    obtain ⟨k2, v2⟩ := hd
    by_cases hk : k2 = k
    · subst hk
      by_cases ht : t = k2
      · simp [idxSet, idxLookup, ht]
      · simp [idxSet, idxLookup, ht, Ne.symm ht]
    · by_cases ht : t = k2
      · subst ht
        simp [idxSet, idxLookup, hk, Ne.symm hk]
      · simp [idxSet, idxLookup, hk, ht, Ne.symm ht, ih]

/-- A found uid position is in range. -/
theorem uidPos_lt_length {u : Nat} :
    ∀ {l : List Node} {i : Nat}, uidPos l u = some i → i < l.length := by
  intro l
  induction l with
  | nil => intro i h; simp [uidPos] at h
  | cons n rest ih =>
    intro i h
    rw [uidPos] at h
    by_cases hn : n.uid = u
    · rw [if_pos hn] at h
      cases h
      simp
    · rw [if_neg hn] at h
      cases hu : uidPos rest u with
      | none => rw [hu] at h; cases h
      | some j =>
        rw [hu] at h
        cases h
        have := ih hu
        simp
        omega

/-- Finding a uid is unaffected by changes at or after position `p` when
the hit is before `p`. -/
theorem uidPos_take_append {u : Nat} :
    ∀ {l : List Node} {i p : Nat} (rest : List Node),
      uidPos l u = some i → i < p → uidPos (l.take p ++ rest) u = some i := by
  intro l
  induction l with
  | nil => intro i p rest h _; simp [uidPos] at h
  | cons n tl ih =>
    intro i p rest h hip
    rw [uidPos] at h
    obtain ⟨p2, rfl⟩ : ∃ p2, p = p2 + 1 := ⟨p - 1, by omega⟩
    rw [List.take_succ_cons, List.cons_append, uidPos]
    by_cases hn : n.uid = u
    · rw [if_pos hn] at h ⊢
      exact h
    · rw [if_neg hn] at h ⊢
      cases hu : uidPos tl u with
      | none => rw [hu] at h; cases h
      | some j =>
        rw [hu, Option.map_some'] at h
        have hij : i = j + 1 := by injection h with h2; omega
        subst hij
        rw [ih rest hu (by omega), Option.map_some']

/-- Evaluation of the splice walk when it steps over the head. -/
theorem insTs_cons_pos {w : Wchar} {n : Node} (h : w.timestamp < n.timestamp)
    (u : Nat) (rest : List Node) :
    insTs w u (n :: rest) = n :: insTs w u rest := by
  rw [insTs, if_pos h]

/-- Evaluation of the splice walk when it stops at the head. -/
theorem insTs_cons_neg {w : Wchar} {n : Node} (h : ¬ w.timestamp < n.timestamp)
    (u : Nat) (rest : List Node) :
    insTs w u (n :: rest) = mkNode w u :: n :: rest := by
  rw [insTs, if_neg h]

/-- The splice of `_downstream_addRight` grows the chain by one node. -/
theorem length_insTs (w : Wchar) (u : Nat) :
    ∀ l : List Node, (insTs w u l).length = l.length + 1 := by
  intro l
  induction l with
  | nil => rfl
  | cons n rest ih =>
    rw [insTs]
    by_cases h : w.timestamp < n.timestamp
    · rw [if_pos h]
      simp [ih]
    · rw [if_neg h]
      simp

/-- A successful `predPos` is bounded by the chain length. -/
theorem predPos_le {r : Replica} {pv : Option Nat} {p : Nat}
    (h : predPos r pv = .ok p) : p ≤ r.nodes.length := by
  cases pv with
  | none =>
    rw [predPos] at h
    cases h
    exact Nat.zero_le _
  | some u =>
    rw [predPos] at h
    cases hu : uidPos r.nodes u with
    | none => rw [hu] at h; cases h
    | some i =>
      rw [hu] at h
      cases h
      exact uidPos_lt_length hu

/-- Explicit form of a successful `_downstream_addRight`. -/
theorem downstreamAddRight_ok {r : Replica} {t : Int} {pv : Option Nat} {p : Nat}
    (w : Wchar) (hlk : idxLookup r.index t = some pv)
    (hpp : predPos r pv = .ok p) :
    downstreamAddRight r t w = .ok { r with
      nodes := r.nodes.take p ++ insTs w r.nextUid (r.nodes.drop p),
      index := idxSet r.index w.timestamp (some r.nextUid),
      nextTimestamp :=
        if r.nextTimestamp ≤ w.timestamp
        then jsShl16 (jsShrU16 w.timestamp + 1) + (r.id : Int)
        else r.nextTimestamp,
      nextUid := r.nextUid + 1 } := by
  rw [downstreamAddRight, hlk]
  simp only
  rw [hpp]

/-- Replacing the entry at another key leaves a lookup unchanged. -/
theorem idxLookup_idxSet_ne {idx : List (Int × Option Nat)} {k t : Int}
    {v : Option Nat} (h : t ≠ k) :
    idxLookup (idxSet idx k v) t = idxLookup idx t := by
  rw [idxLookup_idxSet, if_neg h]

/-- Replaying an empty op list is the identity. -/
theorem applyOps_nil (r : Replica) : applyOps r [] = .ok r := rfl

/-- Replay steps through a successful op. -/
theorem applyOps_cons_ok {r r2 : Replica} {op : Op} {ops : List Op}
    (h : applyOp r op = .ok r2) : applyOps r (op :: ops) = applyOps r2 ops := by
  rw [applyOps, h]

/-- `_downstream_addRight` with an unknown anchor fails. -/
theorem downstreamAddRight_err1 {r : Replica} {t : Int} (w : Wchar)
    (hlk : idxLookup r.index t = none) :
    downstreamAddRight r t w
      = .error "downstream: cannot add next to unknown element" := by
  rw [downstreamAddRight, hlk]

/-- `_downstream_addRight` with a dangling index entry fails. -/
theorem downstreamAddRight_err2 {r : Replica} {t : Int} {pv : Option Nat}
    {e : String} (w : Wchar) (hlk : idxLookup r.index t = some pv)
    (hpp : predPos r pv = .error e) :
    downstreamAddRight r t w = .error e := by
  rw [downstreamAddRight, hlk]
  simp only
  rw [hpp]

/-- A successful `_downstream_addRight` always splices one more node in:
it never absorbs a duplicate. -/
theorem downstreamAddRight_length {r r2 : Replica} {t : Int} {w : Wchar}
    (h : downstreamAddRight r t w = .ok r2) :
    r2.nodes.length = r.nodes.length + 1 := by
  cases hlk : idxLookup r.index t with
  | none => rw [downstreamAddRight_err1 w hlk] at h; cases h
  | some pv =>
    cases hpp : predPos r pv with
    | error e => rw [downstreamAddRight_err2 w hlk hpp] at h; cases h
    | ok p =>
      rw [downstreamAddRight_ok w hlk hpp] at h
      injection h with h2
      rw [← h2]
      have hple := predPos_le hpp
      simp only [List.length_append, List.length_take, length_insTs,
        List.length_drop]
      omega

/-- `_downstream_addRight` leaves the sentinel flag alone. -/
theorem downstreamAddRight_left {r r2 : Replica} {t : Int} {w : Wchar}
    (h : downstreamAddRight r t w = .ok r2) :
    r2.leftRemoved = r.leftRemoved := by
  cases hlk : idxLookup r.index t with
  | none => rw [downstreamAddRight_err1 w hlk] at h; cases h
  | some pv =>
    cases hpp : predPos r pv with
    | error e => rw [downstreamAddRight_err2 w hlk hpp] at h; cases h
    | ok p =>
      rw [downstreamAddRight_ok w hlk hpp] at h
      injection h with h2
      rw [← h2]

/-- `_downstream_addRight` only ever adds `some uid` index entries. -/
theorem downstreamAddRight_sentinel {r r2 : Replica} {t : Int} {w : Wchar}
    (h : downstreamAddRight r t w = .ok r2) (hS : SentinelOnlyLeft r) :
    SentinelOnlyLeft r2 := by
  cases hlk : idxLookup r.index t with
  | none => rw [downstreamAddRight_err1 w hlk] at h; cases h
  | some pv =>
    cases hpp : predPos r pv with
    | error e => rw [downstreamAddRight_err2 w hlk hpp] at h; cases h
    | ok p =>
      rw [downstreamAddRight_ok w hlk hpp] at h
      injection h with h2
      intro t2 ht2
      rw [← h2] at ht2
      simp only at ht2
      rw [idxLookup_idxSet] at ht2
      by_cases hc : t2 = w.timestamp
      · rw [if_pos hc] at ht2
        cases ht2
      · rw [if_neg hc] at ht2
        exact hS t2 ht2

/-- A successful `_downstream_remove` of a non-sentinel timestamp keeps
the sentinel flag and the index. -/
theorem downstreamRemove_left {r r2 : Replica} {t : Int}
    (hne : t ≠ -1) (hS : SentinelOnlyLeft r)
    (h : downstreamRemove r t = .ok r2) :
    r2.leftRemoved = r.leftRemoved ∧ r2.index = r.index := by
  cases hlk : idxLookup r.index t with
  | none => rw [downstreamRemove, hlk] at h; cases h
  | some pv =>
    cases pv with
    | none => exact absurd (hS t hlk) hne
    | some u =>
      rw [downstreamRemove, hlk] at h
      simp only at h
      cases hu : uidPos r.nodes u with
      | none => rw [hu] at h; cases h
      | some i =>
        rw [hu] at h
        simp only at h
        by_cases hrm : (r.nodes.getD i defaultNode).removed
        · rw [if_pos hrm] at h; cases h
        · rw [if_neg hrm] at h
          injection h with h2
          rw [← h2]
          exact ⟨rfl, rfl⟩

/-- `predPos` is stable under edits at or after the returned position. -/
theorem predPos_stable {r r2 : Replica} {pv : Option Nat} {p : Nat}
    {rest : List Node} (hn : r2.nodes = r.nodes.take p ++ rest)
    (hpp : predPos r pv = .ok p) : predPos r2 pv = .ok p := by
  cases pv with
  | none =>
    rw [predPos] at hpp
    cases hpp
    rfl
  | some u =>
    rw [predPos] at hpp ⊢
    cases hu : uidPos r.nodes u with
    | none => rw [hu] at hpp; cases hpp
    | some i =>
      rw [hu] at hpp
      cases hpp
      rw [hn, uidPos_take_append _ hu (Nat.lt_succ_self i)]

/-- `removed` projections agree on lists with equal observable content. -/
theorem textNodes_proj :
    ∀ {l l2 : List Node}, projNodes l = projNodes l2 → textNodes l = textNodes l2 := by
  intro l
  induction l with
  | nil =>
    intro l2 h
    cases l2 with
    | nil => rfl
    | cons m tl => simp [projNodes] at h
  | cons n tl ih =>
    intro l2 h
    cases l2 with
    | nil => simp [projNodes] at h
    | cons m tl2 =>
      simp only [projNodes, List.map_cons, List.cons.injEq] at h
      have hts : n.timestamp = m.timestamp := by
        have := h.1
        rw [projNode, projNode] at this
        exact (Prod.mk.injEq _ _ _ _ ▸ this).1
      have hat : n.atom = m.atom := by
        have := h.1
        rw [projNode, projNode] at this
        have h2 := (Prod.mk.injEq _ _ _ _ ▸ this).2
        exact (Prod.mk.injEq _ _ _ _ ▸ h2).1
      have hrm : n.removed = m.removed := by
        have := h.1
        rw [projNode, projNode] at this
        have h2 := (Prod.mk.injEq _ _ _ _ ▸ this).2
        exact (Prod.mk.injEq _ _ _ _ ▸ h2).2
      have htl := ih (show projNodes tl = projNodes tl2 from h.2)
      rw [textNodes, textNodes, List.filter_cons, List.filter_cons, hrm]
      by_cases hr : (!m.removed) = true
      · rw [if_pos hr, if_pos hr, List.map_cons, List.map_cons, hat]
        rw [textNodes, textNodes] at htl
        rw [htl]
      · rw [if_neg hr, if_neg hr]
        rw [textNodes, textNodes] at htl
        exact htl

/-- The uid argument does not influence the observable result of the
splice. -/
theorem projNodes_insTs_congr (w : Wchar) (u u2 : Nat) :
    ∀ l : List Node, projNodes (insTs w u l) = projNodes (insTs w u2 l) := by
  intro l
  induction l with
  | nil => rfl
  | cons n rest ih =>
    by_cases h : w.timestamp < n.timestamp
    · rw [insTs_cons_pos h u rest, insTs_cons_pos h u2 rest]
      calc projNodes (n :: insTs w u rest)
          = projNode n :: projNodes (insTs w u rest) := rfl
        _ = projNode n :: projNodes (insTs w u2 rest) := by rw [ih]
        _ = projNodes (n :: insTs w u2 rest) := rfl
    · rw [insTs_cons_neg h u rest, insTs_cons_neg h u2 rest]
      rfl

/-- Two splices after the same point commute observably when the
timestamps differ (stated for `w2 < w1`). -/
theorem insTs_insTs_proj {w1 w2 : Wchar} (h : w2.timestamp < w1.timestamp)
    (u1 u2 u3 u4 : Nat) :
    ∀ l : List Node,
      projNodes (insTs w2 u2 (insTs w1 u1 l))
        = projNodes (insTs w1 u3 (insTs w2 u4 l)) := by
  intro l
  induction l with
  | nil =>
    rw [show insTs w1 u1 ([] : List Node) = [mkNode w1 u1] from rfl]
    rw [insTs_cons_pos (show w2.timestamp < (mkNode w1 u1).timestamp from h) u2 []]
    rw [show insTs w2 u4 ([] : List Node) = [mkNode w2 u4] from rfl]
    rw [insTs_cons_neg
      (show ¬ w1.timestamp < (mkNode w2 u4).timestamp from
            (show ¬ w1.timestamp < w2.timestamp by omega)) u3 []]
    rfl
  | cons n rest ih =>
    by_cases h1 : w1.timestamp < n.timestamp
    · have h2 : w2.timestamp < n.timestamp := by omega
      rw [insTs_cons_pos h1 u1 rest, insTs_cons_pos h2 u2 (insTs w1 u1 rest)]
      rw [insTs_cons_pos h2 u4 rest, insTs_cons_pos h1 u3 (insTs w2 u4 rest)]
      calc projNodes (n :: insTs w2 u2 (insTs w1 u1 rest))
          = projNode n :: projNodes (insTs w2 u2 (insTs w1 u1 rest)) := rfl
        _ = projNode n :: projNodes (insTs w1 u3 (insTs w2 u4 rest)) := by rw [ih]
        _ = projNodes (n :: insTs w1 u3 (insTs w2 u4 rest)) := rfl
    · by_cases h2 : w2.timestamp < n.timestamp
      · rw [insTs_cons_neg h1 u1 rest]
        rw [insTs_cons_pos
          (show w2.timestamp < (mkNode w1 u1).timestamp from h) u2 (n :: rest)]
        rw [insTs_cons_pos h2 u2 rest]
        rw [insTs_cons_pos h2 u4 rest]
        rw [insTs_cons_neg h1 u3 (insTs w2 u4 rest)]
        calc projNodes (mkNode w1 u1 :: n :: insTs w2 u2 rest)
            = (w1.timestamp, w1.atom, false) :: projNode n
                :: projNodes (insTs w2 u2 rest) := rfl
          _ = (w1.timestamp, w1.atom, false) :: projNode n
                :: projNodes (insTs w2 u4 rest) := by
              rw [projNodes_insTs_congr w2 u2 u4 rest]
          _ = projNodes (mkNode w1 u3 :: n :: insTs w2 u4 rest) := rfl
      · rw [insTs_cons_neg h1 u1 rest]
        rw [insTs_cons_pos
          (show w2.timestamp < (mkNode w1 u1).timestamp from h) u2 (n :: rest)]
        rw [insTs_cons_neg h2 u2 rest]
        rw [insTs_cons_neg h2 u4 rest]
        rw [insTs_cons_neg
          (show ¬ w1.timestamp < (mkNode w2 u4).timestamp from
            (show ¬ w1.timestamp < w2.timestamp by omega)) u3
          (n :: rest)]
        rfl

/-- The splice puts the new node somewhere in the middle of the old list. -/
theorem insTs_decomp (w : Wchar) (u : Nat) :
    ∀ l : List Node, ∃ X Y, insTs w u l = X ++ mkNode w u :: Y := by
  intro l
  induction l with
  | nil => exact ⟨[], [], rfl⟩
  | cons n rest ih =>
    by_cases h : w.timestamp < n.timestamp
    · obtain ⟨X, Y, hXY⟩ := ih
      refine ⟨n :: X, Y, ?_⟩
      rw [insTs_cons_pos h u rest, hXY]
      rfl
    · refine ⟨[], n :: rest, ?_⟩
      rw [insTs_cons_neg h u rest]
      rfl

/-- After both splices, the larger-timestamp node appears first. -/
theorem insTs_insTs_decomp {w1 w2 : Wchar} (h : w2.timestamp < w1.timestamp)
    (u1 u2 : Nat) :
    ∀ l : List Node, ∃ A B C,
      insTs w2 u2 (insTs w1 u1 l) = A ++ mkNode w1 u1 :: B ++ mkNode w2 u2 :: C := by
  intro l
  induction l with
  | nil =>
    refine ⟨[], [], [], ?_⟩
    rw [show insTs w1 u1 ([] : List Node) = [mkNode w1 u1] from rfl]
    rw [insTs_cons_pos (show w2.timestamp < (mkNode w1 u1).timestamp from h) u2 []]
    rfl
  | cons n rest ih =>
    by_cases h1 : w1.timestamp < n.timestamp
    · have h2 : w2.timestamp < n.timestamp := by omega
      obtain ⟨A, B, C, hABC⟩ := ih
      refine ⟨n :: A, B, C, ?_⟩
      rw [insTs_cons_pos h1 u1 rest, insTs_cons_pos h2 u2 (insTs w1 u1 rest), hABC]
      rfl
    · by_cases h2 : w2.timestamp < n.timestamp
      · obtain ⟨X, Y, hXY⟩ := insTs_decomp w2 u2 rest
        refine ⟨[], n :: X, Y, ?_⟩
        rw [insTs_cons_neg h1 u1 rest]
        rw [insTs_cons_pos
          (show w2.timestamp < (mkNode w1 u1).timestamp from h) u2 (n :: rest)]
        rw [insTs_cons_pos h2 u2 rest, hXY]
        rfl
      · refine ⟨[], [], n :: rest, ?_⟩
        rw [insTs_cons_neg h1 u1 rest]
        rw [insTs_cons_pos
          (show w2.timestamp < (mkNode w1 u1).timestamp from h) u2 (n :: rest)]
        rw [insTs_cons_neg h2 u2 rest]
        rfl

/-- Writing back the element already at a position is the identity. -/
theorem list_set_getD_self :
    ∀ (l : List Node) (i : Nat), i < l.length →
      l.set i (l.getD i defaultNode) = l := by
  intro l
  induction l with
  | nil => intro i h; simp at h
  | cons n rest ih =>
    intro i h
    cases i with
    | zero => rfl
    | succ j =>
      have hj : j < rest.length := by simp at h; omega
      show n :: rest.set j (rest.getD j defaultNode) = n :: rest
      rw [ih j hj]

/-- Observable projection distributes over append. -/
theorem projNodes_append (a b : List Node) :
    projNodes (a ++ b) = projNodes a ++ projNodes b :=
  List.map_append _ _ _

/-- A uid just placed at the end of the list is found there. -/
theorem uidPos_append_eq {u : Nat} :
    ∀ (l : List Node) (m : Node) (rest2 : List Node), m.uid = u →
      (∀ n ∈ l, n.uid ≠ u) → uidPos (l ++ m :: rest2) u = some l.length := by
  intro l
  induction l with
  | nil =>
    intro m rest2 hm _
    rw [List.nil_append, uidPos, if_pos hm]
    rfl
  | cons n tl ih =>
    intro m rest2 hm hne
    rw [List.cons_append, uidPos,
      if_neg (hne n (List.mem_cons_self n tl)),
      ih m rest2 hm (fun x hx => hne x (List.mem_cons_of_mem n hx)),
      Option.map_some']
    rfl

/-- Reading the element just appended. -/
theorem list_getD_append_length :
    ∀ (l : List Node) (m : Node), (l ++ [m]).getD l.length defaultNode = m := by
  intro l
  induction l with
  | nil => intro m; rfl
  | cons n tl ih => intro m; exact ih m

/-- Overwriting the element just appended. -/
theorem list_set_append_length :
    ∀ (l : List Node) (m m2 : Node), (l ++ [m]).set l.length m2 = l ++ [m2] := by
  intro l
  induction l with
  | nil => intro m m2; rfl
  | cons n tl ih =>
    intro m m2
    show n :: ((tl ++ [m]).set tl.length m2) = n :: (tl ++ [m2])
    rw [ih m m2]

/-- `_lookup` success turns `_timestampToPos` into an index. -/
theorem predPos_of_uidPos {r : Replica} {u i : Nat}
    (h : uidPos r.nodes u = some i) : predPos r (some u) = .ok (i + 1) := by
  simp only [predPos]
  rw [h]

/-- Explicit form of a successful `_downstream_remove`. -/
theorem downstreamRemove_ok {r : Replica} {t : Int} {u i : Nat}
    (hlk : idxLookup r.index t = some (some u))
    (hu : uidPos r.nodes u = some i)
    (hrm : (r.nodes.getD i defaultNode).removed = false) :
    downstreamRemove r t = .ok { r with
      nodes := r.nodes.set i { r.nodes.getD i defaultNode with removed := true } } := by
  rw [downstreamRemove, hlk]
  simp only
  rw [hu]
  simp only
  rw [if_neg (by rw [hrm]; exact Bool.false_ne_true)]

/-- A `_downstream_addRight` whose anchor is the last node (or the sentinel
of an empty list) appends the new node at the end. -/
theorem downstreamAddRight_end {s : Replica} {prevTs : Int} {pv : Option Nat}
    (w : Wchar) (hlk : idxLookup s.index prevTs = some pv)
    (hpp : predPos s pv = .ok s.nodes.length) :
    downstreamAddRight s prevTs w = .ok (afterAdd s w false) := by
  have e1 := @downstreamAddRight_ok s prevTs pv s.nodes.length w hlk hpp
  rw [List.take_length, List.drop_length] at e1
  exact e1

/-- A `_downstream_remove` aimed at the node just appended by `afterAdd`
tombstones exactly that node. -/
theorem downstreamRemove_end {s : Replica} (w : Wchar)
    (hne : ∀ n ∈ s.nodes, n.uid ≠ s.nextUid) :
    downstreamRemove (afterAdd s w false) w.timestamp
      = .ok (afterAdd s w true) := by
  have hlk2 : idxLookup (afterAdd s w false).index w.timestamp
      = some (some s.nextUid) := by
    show idxLookup (idxSet s.index w.timestamp (some s.nextUid)) w.timestamp
      = some (some s.nextUid)
    rw [idxLookup_idxSet, if_pos rfl]
  have hu : uidPos (afterAdd s w false).nodes s.nextUid
      = some s.nodes.length :=
    uidPos_append_eq s.nodes
      { mkNode w s.nextUid with removed := false } [] rfl hne
  have hrm2 : ((afterAdd s w false).nodes.getD s.nodes.length
      defaultNode).removed = false := by
    show ((s.nodes ++ [mkNode w s.nextUid]).getD s.nodes.length
      defaultNode).removed = false
    rw [list_getD_append_length]
    rfl
  have e2 := @downstreamRemove_ok (afterAdd s w false) w.timestamp
    s.nextUid s.nodes.length hlk2 hu hrm2
  refine e2.trans ?_
  show Except.ok ({ afterAdd s w false with
      nodes := (s.nodes ++ [mkNode w s.nextUid]).set s.nodes.length
        { (s.nodes ++ [mkNode w s.nextUid]).getD s.nodes.length defaultNode
          with removed := true } } : Replica)
    = Except.ok (afterAdd s w true)
  rw [list_getD_append_length, list_set_append_length]
  rfl

/-- History replay appends each recorded node (addRight at the end of the
list, then the remove when the node is a tombstone), reconstructing the
observable node list. -/
theorem replay_aux :
    ∀ (rest : List Node) (s : Replica) (prevTs : Int) (pv : Option Nat),
      idxLookup s.index prevTs = some pv →
      predPos s pv = .ok s.nodes.length →
      (∀ n ∈ s.nodes, n.uid < s.nextUid) →
      ∃ s2, applyOps s (historyFrom prevTs rest) = .ok s2 ∧
        projNodes s2.nodes = projNodes s.nodes ++ projNodes rest := by
  intro rest
  induction rest with
  | nil =>
    intro s prevTs pv _ _ _
    refine ⟨s, rfl, ?_⟩
    rw [show projNodes ([] : List Node) = [] from rfl, List.append_nil]
  | cons curr rest ih =>
    intro s prevTs pv hlk hpp huid
    have hneuid : ∀ n ∈ s.nodes, n.uid ≠ s.nextUid := by
      intro n hn
      have := huid n hn
      omega
    have hlkA : ∀ (rm : Bool),
        idxLookup (afterAdd s (wcharOf curr) rm).index curr.timestamp
          = some (some s.nextUid) := by
      intro rm
      show idxLookup (idxSet s.index curr.timestamp (some s.nextUid))
        curr.timestamp = some (some s.nextUid)
      rw [idxLookup_idxSet, if_pos rfl]
    have hppA : ∀ (rm : Bool),
        predPos (afterAdd s (wcharOf curr) rm) (some s.nextUid)
          = .ok (afterAdd s (wcharOf curr) rm).nodes.length := by
      intro rm
      rw [@predPos_of_uidPos (afterAdd s (wcharOf curr) rm) s.nextUid
        s.nodes.length
        (uidPos_append_eq s.nodes
          { mkNode (wcharOf curr) s.nextUid with removed := rm }
          [] rfl hneuid)]
      show Except.ok (s.nodes.length + 1)
        = Except.ok (s.nodes
            ++ [{ mkNode (wcharOf curr) s.nextUid with removed := rm }]).length
      rw [List.length_append, List.length_singleton]
    have huidA : ∀ (rm : Bool), ∀ n ∈ (afterAdd s (wcharOf curr) rm).nodes,
        n.uid < (afterAdd s (wcharOf curr) rm).nextUid := by
      intro rm n hn
      show n.uid < s.nextUid + 1
      have hn2 : n ∈ s.nodes
          ++ [{ mkNode (wcharOf curr) s.nextUid with removed := rm }] := hn
      rcases List.mem_append.mp hn2 with h1 | h2
      · have := huid n h1
        omega
      · rw [List.mem_singleton] at h2
        rw [h2]
        show s.nextUid < s.nextUid + 1
        omega
    have hprojA : ∀ (rm : Bool), curr.removed = rm →
        projNodes (afterAdd s (wcharOf curr) rm).nodes
          = projNodes s.nodes ++ [projNode curr] := by
      intro rm hrm
      show projNodes (s.nodes
          ++ [{ mkNode (wcharOf curr) s.nextUid with removed := rm }])
        = projNodes s.nodes ++ [projNode curr]
      rw [projNodes_append]
      rw [show projNodes [{ mkNode (wcharOf curr) s.nextUid with removed := rm }]
        = [(curr.timestamp, curr.atom, rm)] from rfl]
      rw [show projNode curr = (curr.timestamp, curr.atom, curr.removed)
        from rfl, hrm]
    cases hrm : curr.removed with
    | false =>
      have hist : historyFrom prevTs (curr :: rest)
          = Op.addRight prevTs (wcharOf curr)
            :: historyFrom curr.timestamp rest := by
        rw [historyFrom, hrm]
        rfl
      obtain ⟨s2, happ, hproj⟩ := ih (afterAdd s (wcharOf curr) false)
        curr.timestamp (some s.nextUid) (hlkA false) (hppA false) (huidA false)
      refine ⟨s2, ?_, ?_⟩
      · rw [hist, @applyOps_cons_ok _ _ (Op.addRight prevTs (wcharOf curr)) _
          (downstreamAddRight_end (wcharOf curr) hlk hpp)]
        exact happ
      · rw [hproj, hprojA false hrm]
        rw [show projNodes (curr :: rest) = projNode curr :: projNodes rest
          from rfl]
        rw [List.append_assoc]
        rfl
    | true =>
      have hist : historyFrom prevTs (curr :: rest)
          = Op.addRight prevTs (wcharOf curr)
            :: Op.remove curr.timestamp :: historyFrom curr.timestamp rest := by
        rw [historyFrom, hrm]
        rfl
      obtain ⟨s2, happ, hproj⟩ := ih (afterAdd s (wcharOf curr) true)
        curr.timestamp (some s.nextUid) (hlkA true) (hppA true) (huidA true)
      refine ⟨s2, ?_, ?_⟩
      · rw [hist, @applyOps_cons_ok _ _ (Op.addRight prevTs (wcharOf curr)) _
          (downstreamAddRight_end (wcharOf curr) hlk hpp)]
        rw [@applyOps_cons_ok _ _ (Op.remove curr.timestamp) _
          (downstreamRemove_end (wcharOf curr) hneuid)]
        exact happ
      · rw [hproj, hprojA true hrm]
        rw [show projNodes (curr :: rest) = projNode curr :: projNodes rest
          from rfl]
        rw [List.append_assoc]
        rfl

/-- A foldl preserves any invariant preserved by its step function. -/
theorem foldlInv {α σ : Type} (P : σ → Prop) (f : σ → α → σ) :
    ∀ (l : List α) (s : σ), P s → (∀ s a, a ∈ l → P s → P (f s a)) →
      P (l.foldl f s) := by
  intro l
  induction l with
  | nil => intro s hs _; exact hs
  | cons x xs ih =>
    intro s hs hstep
    exact ih (f s x) (hstep s x (List.mem_cons_self x xs) hs)
      (fun s a ha hp => hstep s a (List.mem_cons_of_mem x ha) hp)

/-- Range/size discipline of the longest-common-slice scan: the recorded
result, if non-empty, denotes an in-range, non-empty slice of `a` and of
`b`. -/
theorem lcsState_bounds (a b : List Char) :
    (lcsState a b).2 = { a_start := 0, b_start := 0, length := 0 } ∨
      (1 ≤ (lcsState a b).2.length ∧
       0 ≤ (lcsState a b).2.a_start ∧
       (lcsState a b).2.a_start + (lcsState a b).2.length ≤ (a.length : Int) ∧
       0 ≤ (lcsState a b).2.b_start ∧
       (lcsState a b).2.b_start + (lcsState a b).2.length ≤ (b.length : Int)) := by
  have main :
      ∀ n, n ≤ a.length →
        (∀ j, ((List.range n).foldl (lcsOuter a b)
            ((fun _ => 0), { a_start := 0, b_start := 0, length := 0 })).1 j ≤ n ∧
            ((List.range n).foldl (lcsOuter a b)
            ((fun _ => 0), { a_start := 0, b_start := 0, length := 0 })).1 j ≤ j + 1) ∧
        (((List.range n).foldl (lcsOuter a b)
            ((fun _ => 0), { a_start := 0, b_start := 0, length := 0 })).2
              = { a_start := 0, b_start := 0, length := 0 } ∨
          (1 ≤ ((List.range n).foldl (lcsOuter a b)
            ((fun _ => 0), { a_start := 0, b_start := 0, length := 0 })).2.length ∧
           0 ≤ ((List.range n).foldl (lcsOuter a b)
            ((fun _ => 0), { a_start := 0, b_start := 0, length := 0 })).2.a_start ∧
           ((List.range n).foldl (lcsOuter a b)
            ((fun _ => 0), { a_start := 0, b_start := 0, length := 0 })).2.a_start +
             ((List.range n).foldl (lcsOuter a b)
            ((fun _ => 0), { a_start := 0, b_start := 0, length := 0 })).2.length
               ≤ (a.length : Int) ∧
           0 ≤ ((List.range n).foldl (lcsOuter a b)
            ((fun _ => 0), { a_start := 0, b_start := 0, length := 0 })).2.b_start ∧
           ((List.range n).foldl (lcsOuter a b)
            ((fun _ => 0), { a_start := 0, b_start := 0, length := 0 })).2.b_start +
             ((List.range n).foldl (lcsOuter a b)
            ((fun _ => 0), { a_start := 0, b_start := 0, length := 0 })).2.length
               ≤ (b.length : Int))) := by
    intro n
    induction n with
    | zero => intro _; exact ⟨fun j => ⟨Nat.zero_le _, Nat.zero_le _⟩, Or.inl rfl⟩
    | succ m ih =>
      intro hm
      have hmlt : m < a.length := hm
      obtain ⟨ihruns, ihres⟩ := ih (Nat.le_of_lt hmlt)
      rw [List.range_succ, List.foldl_append]
      set st := (List.range m).foldl (lcsOuter a b)
        ((fun _ => 0), { a_start := 0, b_start := 0, length := 0 }) with hst
      simp only [List.foldl_cons, List.foldl_nil]
      -- one outer step: a fold of lcsInner over the match positions
      rw [lcsOuter]
      have inner :
          ∀ (l : List Nat), (∀ j ∈ l, j < b.length) →
            ∀ (s : (Nat → Nat) × CommonSlice),
              (∀ j, s.1 j ≤ m + 1 ∧ s.1 j ≤ j + 1) →
              (s.2 = { a_start := 0, b_start := 0, length := 0 } ∨
                (1 ≤ s.2.length ∧ 0 ≤ s.2.a_start ∧
                 s.2.a_start + s.2.length ≤ (a.length : Int) ∧
                 0 ≤ s.2.b_start ∧ s.2.b_start + s.2.length ≤ (b.length : Int))) →
              ((∀ j, (l.foldl (lcsInner st.1 m) s).1 j ≤ m + 1 ∧
                     (l.foldl (lcsInner st.1 m) s).1 j ≤ j + 1) ∧
               ((l.foldl (lcsInner st.1 m) s).2
                   = { a_start := 0, b_start := 0, length := 0 } ∨
                 (1 ≤ (l.foldl (lcsInner st.1 m) s).2.length ∧
                  0 ≤ (l.foldl (lcsInner st.1 m) s).2.a_start ∧
                  (l.foldl (lcsInner st.1 m) s).2.a_start +
                    (l.foldl (lcsInner st.1 m) s).2.length ≤ (a.length : Int) ∧
                  0 ≤ (l.foldl (lcsInner st.1 m) s).2.b_start ∧
                  (l.foldl (lcsInner st.1 m) s).2.b_start +
                    (l.foldl (lcsInner st.1 m) s).2.length ≤ (b.length : Int)))) := by
        intro l
        induction l with
        | nil => intro _ s h1 h2; exact ⟨h1, h2⟩
        | cons x xs ihl =>
          intro hmem s h1 h2
          simp only [List.foldl_cons]
          apply ihl (fun j hj => hmem j (List.mem_cons_of_mem x hj))
          · -- runs bounds after one lcsInner step
            intro j
            rw [lcsInner]
            simp only
            by_cases hjx : j = x
            · subst hjx
              rw [Function.update_same]
              constructor
              · have := (ihruns (j - 1)).1
                by_cases hj0 : j = 0
                · simp [hj0]
                · simp only [hj0, if_false]
                  omega
              · have := (ihruns (j - 1)).2
                by_cases hj0 : j = 0
                · simp [hj0]
                · simp only [hj0, if_false]
                  omega
            · rw [Function.update_noteq hjx]
              exact h1 j
          · -- result bounds after one lcsInner step
            have hx : x < b.length := hmem x (List.mem_cons_self x xs)
            rw [lcsInner]
            simp only
            by_cases hlt : s.2.length < (if x = 0 then 0 else st.1 (x - 1)) + 1
            · rw [if_pos hlt]
              right
              have hk1 : (if x = 0 then 0 else st.1 (x - 1)) + 1 ≤ m + 1 := by
                by_cases hx0 : x = 0
                · simp [hx0]
                · simp only [hx0, if_false]
                  have := (ihruns (x - 1)).1
                  omega
              have hk2 : (if x = 0 then 0 else st.1 (x - 1)) + 1 ≤ x + 1 := by
                by_cases hx0 : x = 0
                · simp [hx0]
                · simp only [hx0, if_false]
                  have := (ihruns (x - 1)).2
                  omega
              refine ⟨Nat.le_add_left 1 _, ?_, ?_, ?_, ?_⟩
              · simp only
                omega
              · simp only
                push_cast
                omega
              · simp only
                omega
              · simp only
                push_cast
                omega
            · rw [if_neg hlt]
              exact h2
      have hmemb : ∀ j ∈ matchesInB b (charAtD a m), j < b.length := by
        intro j hj
        rw [matchesInB] at hj
        have := List.of_mem_filter hj
        have hjr := List.mem_filter.mp hj
        exact List.mem_range.mp hjr.1
      have h1' : ∀ j, ((fun _ => 0 : Nat → Nat)) j ≤ m + 1 ∧
          ((fun _ => 0 : Nat → Nat)) j ≤ j + 1 :=
        fun j => ⟨Nat.zero_le _, Nat.zero_le _⟩
      have := inner (matchesInB b (charAtD a m)) hmemb ((fun _ => 0), st.2) h1' ihres
      exact ⟨fun j => (this.1 j), this.2⟩
  have := main a.length (Nat.le_refl _)
  rw [lcsState]
  exact this.2

/-- If the scan returns a non-empty result, the `a`-side slice bounds used
by `compare` are in range (needed for termination of `comparePatch`). -/
theorem findLCS_ok_bounds {a b : List Char} {m : CommonSlice}
    (h : findLongestCommonSlice a b = .ok m) (hz : m.length ≠ 0) :
    0 ≤ m.a_start ∧ m.a_start + (m.length : Int) ≤ (a.length : Int) ∧
      0 ≤ m.b_start ∧ m.b_start + (m.length : Int) ≤ (b.length : Int) := by
  have hm : m = (lcsState a b).2 := by
    rw [findLongestCommonSlice] at h
    by_cases hc : jsSlice a (lcsState a b).2.a_start
        ((lcsState a b).2.a_start + (lcsState a b).2.length)
        = jsSlice b (lcsState a b).2.b_start
        ((lcsState a b).2.b_start + (lcsState a b).2.length)
    · rw [if_pos hc] at h
      exact (Except.ok.injEq _ _ ▸ h.symm : _)
    · rw [if_neg hc] at h
      exact absurd h (by simp)
  rcases lcsState_bounds a b with h0 | hb
  · rw [hm, h0] at hz
    exact absurd rfl hz
  · rw [hm]
    exact ⟨hb.2.1, hb.2.2.1, hb.2.2.2.1, hb.2.2.2.2⟩

/-- Length computations for the slices `compare` recurses on. -/
theorem jsSlice_zero_length_lt {s : List Char} {x : Int} {L : Nat}
    (hx : 0 ≤ x) (hL : 1 ≤ L) (hxL : x + (L : Int) ≤ (s.length : Int)) :
    (jsSlice s 0 x).length < s.length := by
  rw [jsSlice, jsNorm, jsNorm]
  rw [if_neg (by omega : ¬ (0 : Int) < 0), if_neg (by omega : ¬ x < 0)]
  rw [List.length_drop, List.length_take]
  have h1 : min (0 : Int) (s.length : Int) = 0 := by omega
  have h2 : (min x (s.length : Int)).toNat < s.length := by omega
  omega

/-- Length computation for the suffix slice `compare` recurses on. -/
theorem jsSlice_suffix_length_lt {s : List Char} {x : Int} {L : Nat}
    (hx : 0 ≤ x) (hL : 1 ≤ L) (hxL : x + (L : Int) ≤ (s.length : Int)) :
    (jsSlice s (x + L) (s.length : Int)).length < s.length := by
  rw [jsSlice, jsNorm, jsNorm]
  rw [if_neg (by omega : ¬ (s.length : Int) < 0)]
  rw [if_neg (by omega : ¬ x + (L : Int) < 0)]
  rw [List.length_drop, List.length_take]
  have h1 : min (s.length : Int) (s.length : Int) = (s.length : Int) := by omega
  have h2 : (min (x + (L : Int)) (s.length : Int)).toNat ≥ 1 := by omega
  omega

/-- `advNodes` splits over list append. -/
theorem advNodes_append : ∀ (x y : List Node) (rc : Nat × Int),
    advNodes (x ++ y) rc = advNodes y (advNodes x rc) := by
  intro x
  induction x with
  | nil => intro y rc; rfl
  | cons n tl ih => intro y rc; exact ih y (advRC n.removed n.atom rc)

/-- The first phase of the `getRowColumnAfter` walks: advancing through
each node up to and including the target accumulates `advNodes` over that
prefix and leaves the remaining chain. -/
theorem rowColAfterFind_eq : ∀ (l : List Node) (u i : Nat) (rc : Nat × Int),
    uidPos l u = some i →
    rowColAfterFind u l rc
      = .ok (advNodes (l.take (i + 1)) rc, l.drop (i + 1)) := by
  intro l
  induction l with
  | nil =>
    intro u i rc h
    cases (show (none : Option Nat) = some i from h)
  | cons n rest ih =>
    intro u i rc h
    have e : rowColAfterFind u (n :: rest) rc
        = if n.uid = u then .ok (advRC n.removed n.atom rc, rest)
          else rowColAfterFind u rest (advRC n.removed n.atom rc) := rfl
    rw [uidPos] at h
    by_cases hu : n.uid = u
    · rw [if_pos hu] at h
      injection h with h2
      subst h2
      rw [e, if_pos hu]
      rfl
    · rw [if_neg hu] at h
      cases hj : uidPos rest u with
      | none =>
        rw [hj, Option.map_none'] at h
        cases h
      | some j =>
        rw [hj, Option.map_some'] at h
        injection h with h2
        subst h2
        rw [e, if_neg hu, ih u j (advRC n.removed n.atom rc) hj]
        rfl

/-- The second phase (the sibling walk of the two-argument
`getRowColumnAfter`): it advances over exactly the nodes that
`_downstream_addRight` would step over. -/
theorem rowColSkipWalk_eq : ∀ (l : List Node) (wt : Int) (rc : Nat × Int),
    rowColSkipWalk wt l rc = advNodes (l.take (skipBigger wt l)) rc := by
  intro l
  induction l with
  | nil => intro wt rc; rfl
  | cons n rest ih =>
    intro wt rc
    have e : rowColSkipWalk wt (n :: rest) rc
        = if wt < n.timestamp
          then rowColSkipWalk wt rest (advRC n.removed n.atom rc) else rc := rfl
    have e2 : skipBigger wt (n :: rest)
        = if wt < n.timestamp then skipBigger wt rest + 1 else 0 := rfl
    by_cases hlt : wt < n.timestamp
    · rw [e, if_pos hlt, ih, e2, if_pos hlt]
      rfl
    · rw [e, if_neg hlt, e2, if_neg hlt]
      rfl

/-- The advance fold counts exactly the non-removed atoms, newlines
starting a new row: it is the spec-modelled `posRCacc` over the visible
text of the node list. -/
theorem advNodes_posRC : ∀ (l : List Node) (a b : Nat),
    advNodes l (a, (b : Int))
      = ((posRCacc (textNodes l) a b).1,
         ((posRCacc (textNodes l) a b).2 : Int)) := by
  intro l
  induction l with
  | nil => intro a b; rfl
  | cons n rest ih =>
    intro a b
    have e : advNodes (n :: rest) (a, (b : Int))
        = advNodes rest (advRC n.removed n.atom (a, (b : Int))) := rfl
    rw [e]
    cases hr : n.removed with
    | true =>
      have e2 : advRC true n.atom (a, (b : Int)) = (a, (b : Int)) := rfl
      have e3 : textNodes (n :: rest) = textNodes rest := by
        simp [textNodes, hr]
      rw [e2, e3]
      exact ih a b
    | false =>
      have e3 : textNodes (n :: rest) = n.atom :: textNodes rest := by
        simp [textNodes, hr]
      rw [e3]
      have e4 : advRC false n.atom (a, (b : Int))
          = if n.atom = '\n' then ((a + 1 : Nat), ((0 : Nat) : Int))
            else (a, ((b : Int) + 1)) := rfl
      by_cases ha : n.atom = '\n'
      · rw [e4, if_pos ha, ha]
        have e5 : posRCacc ('\n' :: textNodes rest) a b
            = posRCacc (textNodes rest) (a + 1) 0 := rfl
        rw [e5]
        exact ih (a + 1) 0
      · rw [e4, if_neg ha]
        have hc : ((b : Int) + 1) = ((b + 1 : Nat) : Int) := by omega
        rw [hc]
        have e5 : posRCacc (n.atom :: textNodes rest) a b
            = if n.atom = '\n' then posRCacc (textNodes rest) (a + 1) 0
              else posRCacc (textNodes rest) a (b + 1) := rfl
        rw [e5, if_neg ha]
        exact ih a (b + 1)

/-- Visible text distributes over list append. -/
theorem textNodes_append (a b : List Node) :
    textNodes (a ++ b) = textNodes a ++ textNodes b := by
  simp [textNodes]

/-- The row/column count never moves backwards (lexicographically). -/
theorem posRCacc_mono : ∀ (cs : List Char) (a b : Nat),
    a ≤ (posRCacc cs a b).1 ∧
    (a = (posRCacc cs a b).1 → b ≤ (posRCacc cs a b).2) := by
  intro cs
  induction cs with
  | nil => intro a b; exact ⟨Nat.le_refl a, fun _ => Nat.le_refl b⟩
  | cons ch cs ih =>
    intro a b
    have e : posRCacc (ch :: cs) a b
        = if ch = '\n' then posRCacc cs (a + 1) 0
          else posRCacc cs a (b + 1) := rfl
    by_cases ha : ch = '\n'
    · rw [e, if_pos ha]
      obtain ⟨h1, h2⟩ := ih (a + 1) 0
      exact ⟨by omega, fun hq => by omega⟩
    · rw [e, if_neg ha]
      obtain ⟨h1, h2⟩ := ih a (b + 1)
      refine ⟨h1, fun hq => ?_⟩
      have := h2 hq
      omega

/-- After at least one further character the row/column count is strictly
beyond the current position. -/
theorem posRCacc_target_lt (ch : Char) (cs : List Char) (a b : Nat) :
    a < (posRCacc (ch :: cs) a b).1 ∨
    (a = (posRCacc (ch :: cs) a b).1 ∧ b < (posRCacc (ch :: cs) a b).2) := by
  have e : posRCacc (ch :: cs) a b
      = if ch = '\n' then posRCacc cs (a + 1) 0
        else posRCacc cs a (b + 1) := rfl
  by_cases ha : ch = '\n'
  · rw [e, if_pos ha]
    obtain ⟨h1, h2⟩ := posRCacc_mono cs (a + 1) 0
    left
    omega
  · rw [e, if_neg ha]
    obtain ⟨h1, h2⟩ := posRCacc_mono cs a (b + 1)
    by_cases hq : a = (posRCacc cs a (b + 1)).1
    · right
      refine ⟨hq, ?_⟩
      have := h2 hq
      omega
    · left
      omega

/-- The `getNodeAt` walk, aimed at the row/column of the offset counting
`k` more visible characters, stops at the node carrying the `k`-th visible
atom (or stays put when `k = 0`): the visible text splits exactly at `k`
around the returned position. -/
theorem getNodeAtAux_eq : ∀ (l : List Node) (k a b : Nat) (curTs : Int)
    (line col : Nat),
    k ≤ (textNodes l).length →
    line = (posRCacc ((textNodes l).take k) a b).1 →
    col = (posRCacc ((textNodes l).take k) a b).2 →
    ∃ p, p ≤ l.length ∧
      getNodeAtAux line col l curTs a b
        = .ok (if p = 0 then curTs
            else (l.getD (p - 1) defaultNode).timestamp) ∧
      textNodes (l.take p) = (textNodes l).take k ∧
      textNodes (l.drop p) = (textNodes l).drop k := by
  intro l
  induction l with
  | nil =>
    intro k a b curTs line col hk hline hcol
    have hk0 : k = 0 := by
      have h0 : (textNodes ([] : List Node)).length = 0 := rfl
      omega
    subst hk0
    have hla : line = a := hline
    have hcb : col = b := hcol
    refine ⟨0, Nat.le_refl 0, ?_, rfl, rfl⟩
    have e : getNodeAtAux line col ([] : List Node) curTs a b
        = if a < line ∨ (a = line ∧ b < col) then
            .error "TypeError: cannot read removed of undefined"
          else .ok curTs := rfl
    rw [e, if_neg (by omega)]
    rfl
  | cons n rest ih =>
    intro k a b curTs line col hk hline hcol
    cases hk0 : k with
    | zero =>
      subst hk0
      have hla : line = a := hline
      have hcb : col = b := hcol
      refine ⟨0, by show 0 ≤ rest.length + 1; omega, ?_, rfl, rfl⟩
      have e : getNodeAtAux line col (n :: rest) curTs a b
          = if a < line ∨ (a = line ∧ b < col) then
              (if !n.removed then
                (if n.atom = '\n'
                 then getNodeAtAux line col rest n.timestamp (a + 1) 0
                 else getNodeAtAux line col rest n.timestamp a (b + 1))
               else getNodeAtAux line col rest n.timestamp a b)
            else .ok curTs := rfl
      rw [e, if_neg (by omega)]
      rfl
    | succ k2 =>
      subst hk0
      have e : getNodeAtAux line col (n :: rest) curTs a b
          = if a < line ∨ (a = line ∧ b < col) then
              (if !n.removed then
                (if n.atom = '\n'
                 then getNodeAtAux line col rest n.timestamp (a + 1) 0
                 else getNodeAtAux line col rest n.timestamp a (b + 1))
               else getNodeAtAux line col rest n.timestamp a b)
            else .ok curTs := rfl
      cases hr : n.removed with
      | true =>
        have e3 : textNodes (n :: rest) = textNodes rest := by
          simp [textNodes, hr]
        rw [e3] at hk hline hcol
        cases htr : textNodes rest with
        | nil =>
          rw [htr] at hk
          simp at hk
        | cons c0 cs0 =>
          have hcond : a < line ∨ (a = line ∧ b < col) := by
            rw [hline, hcol, htr]
            exact posRCacc_target_lt c0 (cs0.take k2) a b
          obtain ⟨p2, hp2le, hp2walk, hp2take, hp2drop⟩ :=
            ih (k2 + 1) a b n.timestamp line col hk hline hcol
          refine ⟨p2 + 1, by show p2 + 1 ≤ rest.length + 1; omega, ?_, ?_, ?_⟩
          · rw [e, if_pos hcond, hr]
            show getNodeAtAux line col rest n.timestamp a b
              = .ok (if p2 + 1 = 0 then curTs
                  else ((n :: rest).getD (p2 + 1 - 1) defaultNode).timestamp)
            rw [hp2walk]
            cases p2 with
            | zero => rfl
            | succ q => rfl
          · rw [show (n :: rest).take (p2 + 1) = n :: rest.take p2 from rfl]
            rw [show textNodes (n :: rest.take p2) = textNodes (rest.take p2)
              from by simp [textNodes, hr]]
            rw [hp2take, e3]
          · rw [show (n :: rest).drop (p2 + 1) = rest.drop p2 from rfl]
            rw [hp2drop, e3]
      | false =>
        have e3 : textNodes (n :: rest) = n.atom :: textNodes rest := by
          simp [textNodes, hr]
        rw [e3] at hk hline hcol
        have hk2 : k2 ≤ (textNodes rest).length := by
          have h4 : (n.atom :: textNodes rest).length
              = (textNodes rest).length + 1 := rfl
          omega
        have hcond : a < line ∨ (a = line ∧ b < col) := by
          rw [hline, hcol]
          exact posRCacc_target_lt n.atom ((textNodes rest).take k2) a b
        have e5 : posRCacc (n.atom :: (textNodes rest).take k2) a b
            = if n.atom = '\n'
              then posRCacc ((textNodes rest).take k2) (a + 1) 0
              else posRCacc ((textNodes rest).take k2) a (b + 1) := rfl
        by_cases ha : n.atom = '\n'
        · have hline2 : line = (posRCacc ((textNodes rest).take k2) (a + 1) 0).1 := by
            rw [hline,
              show posRCacc ((n.atom :: textNodes rest).take (k2 + 1)) a b
                = posRCacc (n.atom :: (textNodes rest).take k2) a b from rfl,
              e5, if_pos ha]
          have hcol2 : col = (posRCacc ((textNodes rest).take k2) (a + 1) 0).2 := by
            rw [hcol,
              show posRCacc ((n.atom :: textNodes rest).take (k2 + 1)) a b
                = posRCacc (n.atom :: (textNodes rest).take k2) a b from rfl,
              e5, if_pos ha]
          obtain ⟨p2, hp2le, hp2walk, hp2take, hp2drop⟩ :=
            ih k2 (a + 1) 0 n.timestamp line col hk2 hline2 hcol2
          refine ⟨p2 + 1, by show p2 + 1 ≤ rest.length + 1; omega, ?_, ?_, ?_⟩
          · rw [e, if_pos hcond, hr, if_pos ha]
            show getNodeAtAux line col rest n.timestamp (a + 1) 0
              = .ok (if p2 + 1 = 0 then curTs
                  else ((n :: rest).getD (p2 + 1 - 1) defaultNode).timestamp)
            rw [hp2walk]
            cases p2 with
            | zero => rfl
            | succ q => rfl
          · rw [show (n :: rest).take (p2 + 1) = n :: rest.take p2 from rfl]
            rw [show textNodes (n :: rest.take p2)
                = n.atom :: textNodes (rest.take p2)
              from by simp [textNodes, hr]]
            rw [hp2take, e3]
            rfl
          · rw [show (n :: rest).drop (p2 + 1) = rest.drop p2 from rfl]
            rw [hp2drop, e3]
            rfl
        · have hline2 : line = (posRCacc ((textNodes rest).take k2) a (b + 1)).1 := by
            rw [hline,
              show posRCacc ((n.atom :: textNodes rest).take (k2 + 1)) a b
                = posRCacc (n.atom :: (textNodes rest).take k2) a b from rfl,
              e5, if_neg ha]
          have hcol2 : col = (posRCacc ((textNodes rest).take k2) a (b + 1)).2 := by
            rw [hcol,
              show posRCacc ((n.atom :: textNodes rest).take (k2 + 1)) a b
                = posRCacc (n.atom :: (textNodes rest).take k2) a b from rfl,
              e5, if_neg ha]
          obtain ⟨p2, hp2le, hp2walk, hp2take, hp2drop⟩ :=
            ih k2 a (b + 1) n.timestamp line col hk2 hline2 hcol2
          refine ⟨p2 + 1, by show p2 + 1 ≤ rest.length + 1; omega, ?_, ?_, ?_⟩
          · rw [e, if_pos hcond, hr, if_neg ha]
            show getNodeAtAux line col rest n.timestamp a (b + 1)
              = .ok (if p2 + 1 = 0 then curTs
                  else ((n :: rest).getD (p2 + 1 - 1) defaultNode).timestamp)
            rw [hp2walk]
            cases p2 with
            | zero => rfl
            | succ q => rfl
          · rw [show (n :: rest).take (p2 + 1) = n :: rest.take p2 from rfl]
            rw [show textNodes (n :: rest.take p2)
                = n.atom :: textNodes (rest.take p2)
              from by simp [textNodes, hr]]
            rw [hp2take, e3]
            rfl
          · rw [show (n :: rest).drop (p2 + 1) = rest.drop p2 from rfl]
            rw [hp2drop, e3]
            rfl

/-- When the new timestamp beats every present one, the splice walk of
`_downstream_addRight` stops immediately. -/
theorem insTs_front {w : Wchar} {nu : Nat} :
    ∀ (l : List Node), (∀ n ∈ l, ¬ w.timestamp < n.timestamp) →
      insTs w nu l = mkNode w nu :: l := by
  intro l h
  cases l with
  | nil => rfl
  | cons n rest =>
    rw [insTs, if_neg (h n (List.mem_cons_self n rest))]

/-- Taking one element past a left factor of an append. -/
theorem take_append_len_succ : ∀ (a : List Node) (m : Node) (b : List Node),
    (a ++ m :: b).take (a.length + 1) = a ++ [m] := by
  intro a
  induction a with
  | nil => intro m b; rfl
  | cons x xs ih =>
    intro m b
    show x :: ((xs ++ m :: b).take (xs.length + 1)) = x :: (xs ++ [m])
    rw [ih]

/-- Dropping one element past a left factor of an append. -/
theorem drop_append_len_succ : ∀ (a : List Node) (m : Node) (b : List Node),
    (a ++ m :: b).drop (a.length + 1) = b := by
  intro a
  induction a with
  | nil => intro m b; rfl
  | cons x xs ih =>
    intro m b
    show (xs ++ m :: b).drop (xs.length + 1) = b
    rw [ih]

/-- One step of the `insertRowColumn` typing loop: minting then
`_downstream_addRight` splices the fresh node exactly at position `p`. -/
theorem downstreamAddRight_mid {r : Replica} {u : Int} {pv : Option Nat}
    {p : Nat} (ch : Char)
    (hlk : idxLookup r.index u = some pv)
    (hpp : predPos r pv = .ok p)
    (htsb : ∀ n ∈ r.nodes, n.timestamp < r.nextTimestamp) :
    downstreamAddRight { r with nextTimestamp := r.nextTimestamp + 65536 } u
        { timestamp := r.nextTimestamp, atom := ch }
      = .ok (afterIns r ch p) := by
  have e1 := @downstreamAddRight_ok
    { r with nextTimestamp := r.nextTimestamp + 65536 } u pv p
    { timestamp := r.nextTimestamp, atom := ch }
    (show idxLookup ({ r with nextTimestamp := r.nextTimestamp + 65536 }
      : Replica).index u = some pv from hlk)
    (show predPos ({ r with nextTimestamp := r.nextTimestamp + 65536 }
      : Replica) pv = .ok p from hpp)
  have hfront : insTs { timestamp := r.nextTimestamp, atom := ch } r.nextUid
      (r.nodes.drop p)
      = mkNode { timestamp := r.nextTimestamp, atom := ch } r.nextUid
          :: r.nodes.drop p :=
    insTs_front _ (fun n hn => by
      have := htsb n (List.mem_of_mem_drop hn)
      show ¬ r.nextTimestamp < n.timestamp
      omega)
  rw [e1]
  show Except.ok ({ r with
      nodes := r.nodes.take p
        ++ insTs { timestamp := r.nextTimestamp, atom := ch } r.nextUid
            (r.nodes.drop p),
      index := idxSet r.index r.nextTimestamp (some r.nextUid),
      nextTimestamp :=
        if r.nextTimestamp + 65536 ≤ r.nextTimestamp
        then jsShl16 (jsShrU16 r.nextTimestamp + 1) + (r.id : Int)
        else r.nextTimestamp + 65536,
      nextUid := r.nextUid + 1 } : Replica) = Except.ok (afterIns r ch p)
  rw [hfront, if_neg (by omega)]
  rfl

/-- The typing loop of `insertRowColumn`, anchored at position `p`,
splices its whole string at position `p` of the node list — so in the
visible text, right after the first `textNodes (take p)` characters. -/
theorem insertChars_splice : ∀ (s : List Char) (r : Replica) (u : Int)
    (pv : Option Nat) (p : Nat),
    idxLookup r.index u = some pv →
    predPos r pv = .ok p →
    (∀ n ∈ r.nodes, n.timestamp < r.nextTimestamp) →
    (∀ n ∈ r.nodes, n.uid < r.nextUid) →
    ∃ r2, insertChars r u s = .ok r2 ∧
      textNodes r2.nodes
        = textNodes (r.nodes.take p) ++ s ++ textNodes (r.nodes.drop p) := by
  intro s
  induction s with
  | nil =>
    intro r u pv p hlk hpp htsb huidb
    refine ⟨r, rfl, ?_⟩
    simp only [List.append_nil, List.nil_append]
    rw [← textNodes_append, List.take_append_drop]
  | cons ch s2 ih =>
    intro r u pv p hlk hpp htsb huidb
    have hlen : (r.nodes.take p).length = p := by
      rw [List.length_take]
      exact min_eq_left (predPos_le hpp)
    have e : insertChars r u (ch :: s2)
        = match downstreamAddRight
            { r with nextTimestamp := r.nextTimestamp + 65536 } u
            { timestamp := r.nextTimestamp, atom := ch } with
          | .error e2 => .error e2
          | .ok rr => insertChars rr r.nextTimestamp s2 := rfl
    have hmid := @downstreamAddRight_mid r u pv p ch hlk hpp htsb
    have hlk2 : idxLookup (afterIns r ch p).index r.nextTimestamp
        = some (some r.nextUid) := by
      show idxLookup (idxSet r.index r.nextTimestamp (some r.nextUid))
        r.nextTimestamp = some (some r.nextUid)
      rw [idxLookup_idxSet, if_pos rfl]
    have hupos2 : uidPos (afterIns r ch p).nodes r.nextUid = some p := by
      show uidPos (r.nodes.take p
          ++ mkNode { timestamp := r.nextTimestamp, atom := ch } r.nextUid
            :: r.nodes.drop p) r.nextUid = some p
      rw [uidPos_append_eq (r.nodes.take p)
        (mkNode { timestamp := r.nextTimestamp, atom := ch } r.nextUid)
        (r.nodes.drop p)
        (show (mkNode { timestamp := r.nextTimestamp, atom := ch }
          r.nextUid).uid = r.nextUid from rfl)
        (fun n hn => by
          have := huidb n (List.mem_of_mem_take hn)
          omega),
        hlen]
    have hpp2 : predPos (afterIns r ch p) (some r.nextUid) = .ok (p + 1) :=
      @predPos_of_uidPos (afterIns r ch p) r.nextUid p hupos2
    have htsb2 : ∀ n ∈ (afterIns r ch p).nodes,
        n.timestamp < (afterIns r ch p).nextTimestamp := by
      intro n hn
      show n.timestamp < r.nextTimestamp + 65536
      have hn2 : n ∈ r.nodes.take p
          ++ mkNode { timestamp := r.nextTimestamp, atom := ch } r.nextUid
            :: r.nodes.drop p := hn
      rcases List.mem_append.mp hn2 with h1 | h2
      · have := htsb n (List.mem_of_mem_take h1)
        omega
      · rcases List.mem_cons.mp h2 with h3 | h4
        · rw [h3]
          show r.nextTimestamp < r.nextTimestamp + 65536
          omega
        · have := htsb n (List.mem_of_mem_drop h4)
          omega
    have huidb2 : ∀ n ∈ (afterIns r ch p).nodes,
        n.uid < (afterIns r ch p).nextUid := by
      intro n hn
      show n.uid < r.nextUid + 1
      have hn2 : n ∈ r.nodes.take p
          ++ mkNode { timestamp := r.nextTimestamp, atom := ch } r.nextUid
            :: r.nodes.drop p := hn
      rcases List.mem_append.mp hn2 with h1 | h2
      · have := huidb n (List.mem_of_mem_take h1)
        omega
      · rcases List.mem_cons.mp h2 with h3 | h4
        · rw [h3]
          show r.nextUid < r.nextUid + 1
          omega
        · have := huidb n (List.mem_of_mem_drop h4)
          omega
    obtain ⟨r3, happ3, htext3⟩ := ih (afterIns r ch p) r.nextTimestamp
      (some r.nextUid) (p + 1) hlk2 hpp2 htsb2 huidb2
    refine ⟨r3, ?_, ?_⟩
    · rw [e, hmid]
      exact happ3
    · rw [htext3]
      have htk := take_append_len_succ (r.nodes.take p)
        (mkNode { timestamp := r.nextTimestamp, atom := ch } r.nextUid)
        (r.nodes.drop p)
      rw [hlen] at htk
      have hdp := drop_append_len_succ (r.nodes.take p)
        (mkNode { timestamp := r.nextTimestamp, atom := ch } r.nextUid)
        (r.nodes.drop p)
      rw [hlen] at hdp
      rw [show (afterIns r ch p).nodes
          = r.nodes.take p
            ++ mkNode { timestamp := r.nextTimestamp, atom := ch } r.nextUid
              :: r.nodes.drop p from rfl]
      rw [htk, hdp, textNodes_append]
      rw [show textNodes [mkNode { timestamp := r.nextTimestamp, atom := ch }
          r.nextUid] = [ch] from rfl]
      simp [List.append_assoc]

/-- `runPatch` splits over patch concatenation. -/
theorem runPatch_append : ∀ (p q : List PatchOp) (s : List Char),
    runPatch (p ++ q) s
      = ((runPatch p s).1 ++ (runPatch q (runPatch p s).2).1,
         (runPatch q (runPatch p s).2).2) := by
  intro p
  induction p with
  | nil => intro q s; rfl
  | cons op rest ih =>
    intro q s
    cases op with
    | retain n =>
      have e1 : runPatch (PatchOp.retain n :: (rest ++ q)) s
          = (s.take n ++ (runPatch (rest ++ q) (s.drop n)).1,
             (runPatch (rest ++ q) (s.drop n)).2) := rfl
      have e2 : runPatch (PatchOp.retain n :: rest) s
          = (s.take n ++ (runPatch rest (s.drop n)).1,
             (runPatch rest (s.drop n)).2) := rfl
      rw [List.cons_append, e1, e2, ih]
      simp [List.append_assoc]
    | del n =>
      have e1 : runPatch (PatchOp.del n :: (rest ++ q)) s
          = runPatch (rest ++ q) (s.drop n) := rfl
      have e2 : runPatch (PatchOp.del n :: rest) s
          = runPatch rest (s.drop n) := rfl
      rw [List.cons_append, e1, e2, ih]
    | insert str =>
      have e1 : runPatch (PatchOp.insert str :: (rest ++ q)) s
          = (str ++ (runPatch (rest ++ q) s).1, (runPatch (rest ++ q) s).2) := rfl
      have e2 : runPatch (PatchOp.insert str :: rest) s
          = (str ++ (runPatch rest s).1, (runPatch rest s).2) := rfl
      rw [List.cons_append, e1, e2, ih]
      simp [List.append_assoc]

/-- `applyPatch` is `runPatch` with the unconsumed input appended. -/
theorem applyPatch_runPatch : ∀ (p : List PatchOp) (s : List Char),
    applyPatch p s = (runPatch p s).1 ++ (runPatch p s).2 := by
  intro p
  induction p with
  | nil => intro s; rfl
  | cons op rest ih =>
    intro s
    cases op with
    | retain n =>
      have e1 : applyPatch (PatchOp.retain n :: rest) s
          = s.take n ++ applyPatch rest (s.drop n) := rfl
      have e2 : runPatch (PatchOp.retain n :: rest) s
          = (s.take n ++ (runPatch rest (s.drop n)).1,
             (runPatch rest (s.drop n)).2) := rfl
      rw [e1, e2, ih]
      simp [List.append_assoc]
    | del n =>
      have e1 : applyPatch (PatchOp.del n :: rest) s
          = applyPatch rest (s.drop n) := rfl
      have e2 : runPatch (PatchOp.del n :: rest) s
          = runPatch rest (s.drop n) := rfl
      rw [e1, e2, ih]
    | insert str =>
      have e1 : applyPatch (PatchOp.insert str :: rest) s
          = str ++ applyPatch rest s := rfl
      have e2 : runPatch (PatchOp.insert str :: rest) s
          = (str ++ (runPatch rest s).1, (runPatch rest s).2) := rfl
      rw [e1, e2, ih]
      simp [List.append_assoc]

/-- A diagonal run never reaches past the start of `a`. -/
theorem runLen_le_left (a b : List Char) : ∀ i j, runLen a b i j ≤ i + 1 := by
  intro i
  induction i with
  | zero =>
    intro j
    have e : runLen a b 0 j = if charAtD a 0 = charAtD b j then 1 else 0 := rfl
    rw [e]
    by_cases h : charAtD a 0 = charAtD b j
    · rw [if_pos h]
    · rw [if_neg h]
      omega
  | succ i2 ihi =>
    intro j
    cases j with
    | zero =>
      have e : runLen a b (i2 + 1) 0
          = if charAtD a (i2 + 1) = charAtD b 0 then 1 else 0 := rfl
      rw [e]
      by_cases h : charAtD a (i2 + 1) = charAtD b 0
      · rw [if_pos h]
        omega
      · rw [if_neg h]
        omega
    | succ j2 =>
      have e : runLen a b (i2 + 1) (j2 + 1)
          = if charAtD a (i2 + 1) = charAtD b (j2 + 1)
            then runLen a b i2 j2 + 1 else 0 := rfl
      rw [e]
      by_cases h : charAtD a (i2 + 1) = charAtD b (j2 + 1)
      · rw [if_pos h]
        have := ihi j2
        omega
      · rw [if_neg h]
        omega

/-- A diagonal run never reaches past the start of `b`. -/
theorem runLen_le_right (a b : List Char) : ∀ i j, runLen a b i j ≤ j + 1 := by
  intro i
  induction i with
  | zero =>
    intro j
    have e : runLen a b 0 j = if charAtD a 0 = charAtD b j then 1 else 0 := rfl
    rw [e]
    by_cases h : charAtD a 0 = charAtD b j
    · rw [if_pos h]
      omega
    · rw [if_neg h]
      omega
  | succ i2 ihi =>
    intro j
    cases j with
    | zero =>
      have e : runLen a b (i2 + 1) 0
          = if charAtD a (i2 + 1) = charAtD b 0 then 1 else 0 := rfl
      rw [e]
      by_cases h : charAtD a (i2 + 1) = charAtD b 0
      · rw [if_pos h]
      · rw [if_neg h]
        omega
    | succ j2 =>
      have e : runLen a b (i2 + 1) (j2 + 1)
          = if charAtD a (i2 + 1) = charAtD b (j2 + 1)
            then runLen a b i2 j2 + 1 else 0 := rfl
      rw [e]
      by_cases h : charAtD a (i2 + 1) = charAtD b (j2 + 1)
      · rw [if_pos h]
        have := ihi j2
        omega
      · rw [if_neg h]
        omega

/-- Every position inside a diagonal run is a character match. -/
theorem runLen_chars (a b : List Char) : ∀ i j t, t < runLen a b i j →
    charAtD a (i - t) = charAtD b (j - t) := by
  intro i
  induction i with
  | zero =>
    intro j t ht
    have e : runLen a b 0 j = if charAtD a 0 = charAtD b j then 1 else 0 := rfl
    by_cases h : charAtD a 0 = charAtD b j
    · rw [e, if_pos h] at ht
      have ht0 : t = 0 := by omega
      subst ht0
      exact h
    · rw [e, if_neg h] at ht
      omega
  | succ i2 ihi =>
    intro j t ht
    cases j with
    | zero =>
      have e : runLen a b (i2 + 1) 0
          = if charAtD a (i2 + 1) = charAtD b 0 then 1 else 0 := rfl
      by_cases h : charAtD a (i2 + 1) = charAtD b 0
      · rw [e, if_pos h] at ht
        have ht0 : t = 0 := by omega
        subst ht0
        exact h
      · rw [e, if_neg h] at ht
        omega
    | succ j2 =>
      have e : runLen a b (i2 + 1) (j2 + 1)
          = if charAtD a (i2 + 1) = charAtD b (j2 + 1)
            then runLen a b i2 j2 + 1 else 0 := rfl
      by_cases h : charAtD a (i2 + 1) = charAtD b (j2 + 1)
      · rw [e, if_pos h] at ht
        cases t with
        | zero => exact h
        | succ t2 =>
          have ht2 : t2 < runLen a b i2 j2 := by omega
          have hrec := ihi j2 t2 ht2
          rw [Nat.succ_sub_succ, Nat.succ_sub_succ]
          exact hrec
      · rw [e, if_neg h] at ht
        omega

/-- A stretch of matching characters ending at `(i, j)` forces the
diagonal run there to be at least that long. -/
theorem runLen_ge (a b : List Char) : ∀ (K i j : Nat),
    (∀ t, t ≤ K → charAtD a (i - t) = charAtD b (j - t)) → K ≤ i → K ≤ j →
    K + 1 ≤ runLen a b i j := by
  intro K
  induction K with
  | zero =>
    intro i j hc _ _
    have h0 : charAtD a i = charAtD b j := hc 0 (Nat.le_refl 0)
    cases i with
    | zero =>
      have e : runLen a b 0 j = if charAtD a 0 = charAtD b j then 1 else 0 := rfl
      rw [e, if_pos h0]
    | succ i2 =>
      cases j with
      | zero =>
        have e : runLen a b (i2 + 1) 0
            = if charAtD a (i2 + 1) = charAtD b 0 then 1 else 0 := rfl
        rw [e, if_pos h0]
      | succ j2 =>
        have e : runLen a b (i2 + 1) (j2 + 1)
            = if charAtD a (i2 + 1) = charAtD b (j2 + 1)
              then runLen a b i2 j2 + 1 else 0 := rfl
        rw [e, if_pos h0]
        omega
  | succ K2 ihK =>
    intro i j hc hKi hKj
    cases i with
    | zero => exact absurd hKi (by omega)
    | succ i2 =>
      cases j with
      | zero => exact absurd hKj (by omega)
      | succ j2 =>
        have h0 : charAtD a (i2 + 1) = charAtD b (j2 + 1) := hc 0 (Nat.zero_le _)
        have e : runLen a b (i2 + 1) (j2 + 1)
            = if charAtD a (i2 + 1) = charAtD b (j2 + 1)
              then runLen a b i2 j2 + 1 else 0 := rfl
        rw [e, if_pos h0]
        have hrec := ihK i2 j2 (fun t ht => by
          have hstep := hc (t + 1) (by omega)
          rw [Nat.succ_sub_succ, Nat.succ_sub_succ] at hstep
          exact hstep) (by omega) (by omega)
        omega

/-- A mismatch at `(i, j)` kills the run. -/
theorem runLen_zero_of_ne {a b : List Char} {i j : Nat}
    (h : charAtD a i ≠ charAtD b j) : runLen a b i j = 0 := by
  cases i with
  | zero =>
    have e : runLen a b 0 j = if charAtD a 0 = charAtD b j then 1 else 0 := rfl
    rw [e, if_neg h]
  | succ i2 =>
    cases j with
    | zero =>
      have e : runLen a b (i2 + 1) 0
          = if charAtD a (i2 + 1) = charAtD b 0 then 1 else 0 := rfl
      rw [e, if_neg h]
    | succ j2 =>
      have e : runLen a b (i2 + 1) (j2 + 1)
          = if charAtD a (i2 + 1) = charAtD b (j2 + 1)
            then runLen a b i2 j2 + 1 else 0 := rfl
      rw [e, if_neg h]

/-- Membership in the `map_of_b` position list. -/
theorem mem_matchesInB {b : List Char} {ch : Char} {j : Nat} :
    j ∈ matchesInB b ch ↔ j < b.length ∧ charAtD b j = ch := by
  simp [matchesInB, List.mem_filter, List.mem_range]

/-- The DP recurrence: at a match `(m, j)`, the run length is one more
than the stored run at `j - 1` of the previous outer iteration. -/
theorem runLen_eq_runsFun {a b : List Char} {m j : Nat}
    (hj : j < b.length) (hch : charAtD a m = charAtD b j) :
    runLen a b m j = (if j = 0 then 0 else runsFun a b m (j - 1)) + 1 := by
  cases m with
  | zero =>
    have e : runLen a b 0 j = if charAtD a 0 = charAtD b j then 1 else 0 := rfl
    rw [e, if_pos hch]
    by_cases hj0 : j = 0
    · rw [if_pos hj0]
    · rw [if_neg hj0]
      have h2 : runsFun a b 0 (j - 1) = 0 := by
        rw [runsFun, if_neg (fun hcon => absurd hcon.1 (by omega))]
      rw [h2]
  | succ m2 =>
    cases j with
    | zero =>
      have e : runLen a b (m2 + 1) 0
          = if charAtD a (m2 + 1) = charAtD b 0 then 1 else 0 := rfl
      rw [e, if_pos hch, if_pos rfl]
    | succ j2 =>
      have e : runLen a b (m2 + 1) (j2 + 1)
          = if charAtD a (m2 + 1) = charAtD b (j2 + 1)
            then runLen a b m2 j2 + 1 else 0 := rfl
      rw [e, if_pos hch, if_neg (Nat.succ_ne_zero j2)]
      have hj2 : j2 < b.length := by omega
      rw [runsFun]
      by_cases hch2 : charAtD a m2 = charAtD b j2
      · rw [if_pos ⟨by omega, hj2, hch2⟩]
        rfl
      · rw [if_neg (fun hcon => hch2 hcon.2.2)]
        rw [runLen_zero_of_ne hch2]

/-- The inner loop of `find_longest_common_slice` over the match positions
of the current character: it records exactly the diagonal run lengths in
`new_runs`, only ever grows the result, dominates every run ending at the
current row, and keeps the result a genuine recorded run. -/
theorem lcsInner_fold (a b : List Char) (m : Nat) (R : Nat → Nat)
    (hR : ∀ j2, R j2 = runsFun a b m j2) :
    ∀ (l : List Nat), (∀ j2 ∈ l, j2 ∈ matchesInB b (charAtD a m)) →
    ∀ (s : (Nat → Nat) × CommonSlice),
      (∀ j2, j2 ∉ matchesInB b (charAtD a m) → s.1 j2 = 0) →
      (∀ j2, j2 ∈ matchesInB b (charAtD a m) → j2 ∉ l →
        s.1 j2 = runLen a b m j2) →
      (∀ j2, j2 ∈ matchesInB b (charAtD a m) → j2 ∉ l →
        runLen a b m j2 ≤ s.2.length) →
      (s.2 = { a_start := 0, b_start := 0, length := 0 } ∨
        ∃ i j2, i < m + 1 ∧ j2 < b.length ∧ charAtD a i = charAtD b j2 ∧
          s.2.length = runLen a b i j2 ∧
          s.2.a_start = (i : Int) - s.2.length + 1 ∧
          s.2.b_start = (j2 : Int) - s.2.length + 1) →
      (∀ j2, j2 ∉ matchesInB b (charAtD a m) →
        (l.foldl (lcsInner R m) s).1 j2 = 0) ∧
      (∀ j2, j2 ∈ matchesInB b (charAtD a m) →
        (l.foldl (lcsInner R m) s).1 j2 = runLen a b m j2) ∧
      s.2.length ≤ (l.foldl (lcsInner R m) s).2.length ∧
      (∀ j2, j2 ∈ matchesInB b (charAtD a m) →
        runLen a b m j2 ≤ (l.foldl (lcsInner R m) s).2.length) ∧
      ((l.foldl (lcsInner R m) s).2
          = { a_start := 0, b_start := 0, length := 0 } ∨
        ∃ i j2, i < m + 1 ∧ j2 < b.length ∧ charAtD a i = charAtD b j2 ∧
          (l.foldl (lcsInner R m) s).2.length = runLen a b i j2 ∧
          (l.foldl (lcsInner R m) s).2.a_start
            = (i : Int) - (l.foldl (lcsInner R m) s).2.length + 1 ∧
          (l.foldl (lcsInner R m) s).2.b_start
            = (j2 : Int) - (l.foldl (lcsInner R m) s).2.length + 1) := by
  intro l
  induction l with
  | nil =>
    intro _ s h1 h2 h3 h4
    exact ⟨h1, fun j2 hj2 => h2 j2 hj2 (List.not_mem_nil j2),
      Nat.le_refl _, fun j2 hj2 => h3 j2 hj2 (List.not_mem_nil j2), h4⟩
  | cons x xs ih =>
    intro hmem s h1 h2 h3 h4
    simp only [List.foldl_cons]
    have hx := hmem x (List.mem_cons_self x xs)
    have hxm := mem_matchesInB.mp hx
    have hk : (if x = 0 then 0 else R (x - 1)) + 1 = runLen a b m x := by
      rw [runLen_eq_runsFun hxm.1 hxm.2.symm]
      by_cases hx0 : x = 0
      · rw [if_pos hx0, if_pos hx0]
      · rw [if_neg hx0, if_neg hx0, hR]
    have hstep1 : (lcsInner R m s x).1
        = Function.update s.1 x (runLen a b m x) := by
      show Function.update s.1 x ((if x = 0 then 0 else R (x - 1)) + 1) = _
      rw [hk]
    have hstep2 : (lcsInner R m s x).2
        = if s.2.length < runLen a b m x then
            { a_start := (m : Int) - (runLen a b m x : Int) + 1,
              b_start := (x : Int) - (runLen a b m x : Int) + 1,
              length := runLen a b m x }
          else s.2 := by
      show (if s.2.length < (if x = 0 then 0 else R (x - 1)) + 1 then
          { a_start := (m : Int)
              - (((if x = 0 then 0 else R (x - 1)) + 1 : Nat) : Int) + 1,
            b_start := (x : Int)
              - (((if x = 0 then 0 else R (x - 1)) + 1 : Nat) : Int) + 1,
            length := (if x = 0 then 0 else R (x - 1)) + 1 }
        else s.2) = _
      rw [hk]
    have hmono : s.2.length ≤ (lcsInner R m s x).2.length := by
      rw [hstep2]
      by_cases hlt : s.2.length < runLen a b m x
      · rw [if_pos hlt]
        show s.2.length ≤ runLen a b m x
        omega
      · rw [if_neg hlt]
    have hres := ih (fun j2 hj2 => hmem j2 (List.mem_cons_of_mem x hj2))
      (lcsInner R m s x)
      (by
        intro j2 hj2
        rw [hstep1, Function.update_noteq
          (fun hje => hj2 (by rw [hje]; exact hx))]
        exact h1 j2 hj2)
      (by
        intro j2 hj2 hnx
        rw [hstep1]
        by_cases hje : j2 = x
        · subst hje
          rw [Function.update_same]
        · rw [Function.update_noteq hje]
          exact h2 j2 hj2 (fun hmem2 =>
            (List.mem_cons.mp hmem2).elim hje hnx))
      (by
        intro j2 hj2 hnx
        rw [hstep2]
        by_cases hlt : s.2.length < runLen a b m x
        · rw [if_pos hlt]
          show runLen a b m j2 ≤ runLen a b m x
          by_cases hje : j2 = x
          · subst hje
            exact Nat.le_refl _
          · have := h3 j2 hj2 (fun hmem2 =>
              (List.mem_cons.mp hmem2).elim hje hnx)
            omega
        · rw [if_neg hlt]
          by_cases hje : j2 = x
          · subst hje
            omega
          · exact h3 j2 hj2 (fun hmem2 =>
              (List.mem_cons.mp hmem2).elim hje hnx))
      (by
        rw [hstep2]
        by_cases hlt : s.2.length < runLen a b m x
        · rw [if_pos hlt]
          refine Or.inr ⟨m, x, by omega, hxm.1, hxm.2.symm, rfl, ?_, ?_⟩
          · show (m : Int) - (runLen a b m x : Int) + 1
              = (m : Int) - ((runLen a b m x : Nat) : Int) + 1
            rfl
          · show (x : Int) - (runLen a b m x : Int) + 1
              = (x : Int) - ((runLen a b m x : Nat) : Int) + 1
            rfl
        · rw [if_neg hlt]
          exact h4)
    obtain ⟨hc1, hc2, hc3, hc4, hc5⟩ := hres
    exact ⟨hc1, hc2, Nat.le_trans hmono hc3, hc4, hc5⟩

/-- Exactness of the `find_longest_common_slice` scan: the `runs` map
holds the diagonal run lengths of the last processed row, the recorded
result length dominates every completed run, and a non-trivial result is
a genuine run (its slices are character-for-character matches). -/
theorem lcsIter_exact (a b : List Char) : ∀ n, n ≤ a.length →
    (∀ j, (lcsIter a b n).1 j = runsFun a b n j) ∧
    (∀ i j, i < n → j < b.length → charAtD a i = charAtD b j →
      runLen a b i j ≤ (lcsIter a b n).2.length) ∧
    ((lcsIter a b n).2 = { a_start := 0, b_start := 0, length := 0 } ∨
      ∃ i j, i < n ∧ j < b.length ∧ charAtD a i = charAtD b j ∧
        (lcsIter a b n).2.length = runLen a b i j ∧
        (lcsIter a b n).2.a_start = (i : Int) - (lcsIter a b n).2.length + 1 ∧
        (lcsIter a b n).2.b_start = (j : Int) - (lcsIter a b n).2.length + 1) := by
  intro n
  induction n with
  | zero =>
    intro _
    refine ⟨?_, ?_, Or.inl rfl⟩
    · intro j
      rw [show (lcsIter a b 0).1 j = 0 from rfl]
      rw [runsFun, if_neg (fun hcon => absurd hcon.1 (by omega))]
    · intro i j hi
      exact absurd hi (by omega)
  | succ m ihm =>
    intro hm1
    obtain ⟨ihruns, ihdom, ihval⟩ := ihm (by omega)
    have estep : lcsIter a b (m + 1) = lcsOuter a b (lcsIter a b m) m := by
      rw [lcsIter, lcsIter, List.range_succ, List.foldl_append]
      rfl
    rw [estep, lcsOuter]
    have hval2 : ((lcsIter a b m).2
            = { a_start := 0, b_start := 0, length := 0 } ∨
          ∃ i j2, i < m + 1 ∧ j2 < b.length ∧ charAtD a i = charAtD b j2 ∧
            (lcsIter a b m).2.length = runLen a b i j2 ∧
            (lcsIter a b m).2.a_start
              = (i : Int) - (lcsIter a b m).2.length + 1 ∧
            (lcsIter a b m).2.b_start
              = (j2 : Int) - (lcsIter a b m).2.length + 1) := by
      rcases ihval with h0 | ⟨i, j2, hi, hj2, hch, hlen, has, hbs⟩
      · exact Or.inl h0
      · exact Or.inr ⟨i, j2, by omega, hj2, hch, hlen, has, hbs⟩
    have hinner := lcsInner_fold a b m (lcsIter a b m).1 ihruns
      (matchesInB b (charAtD a m)) (fun j2 hj2 => hj2)
      ((fun _ => 0), (lcsIter a b m).2)
      (fun j2 _ => rfl)
      (fun j2 hj2 hnj => absurd hj2 hnj)
      (fun j2 hj2 hnj => absurd hj2 hnj)
      hval2
    obtain ⟨hc1, hc2, hc3, hc4, hc5⟩ := hinner
    refine ⟨?_, ?_, hc5⟩
    · intro j
      by_cases hj : j ∈ matchesInB b (charAtD a m)
      · rw [hc2 j hj, runsFun]
        have hjm := mem_matchesInB.mp hj
        rw [if_pos ⟨by omega, hjm.1, hjm.2.symm⟩]
        rfl
      · rw [hc1 j hj, runsFun]
        rw [if_neg (fun hcon =>
          hj (mem_matchesInB.mpr ⟨hcon.2.1, hcon.2.2.symm⟩))]
    · intro i j hi hj hch
      by_cases him : i = m
      · subst him
        exact hc4 j (mem_matchesInB.mpr ⟨hj, hch.symm⟩)
      · have hdom2 := ihdom i j (by omega) hj hch
        have hc3b := hc3
        simp only at hc3b
        omega

/-- `slice(0, 0)` is empty. -/
theorem jsSlice_zero (s : List Char) : jsSlice s 0 0 = [] := by
  rw [jsSlice]
  rw [show jsNorm (s.length : Int) 0 = 0 from by
    rw [jsNorm, if_neg (by omega)]
    omega]
  rfl

/-- An in-range `slice(0, x)` is a `take`. -/
theorem jsSlice_eq_take {s : List Char} {x : Int} (hx : 0 ≤ x)
    (hxl : x ≤ (s.length : Int)) : jsSlice s 0 x = s.take x.toNat := by
  rw [jsSlice]
  rw [show jsNorm (s.length : Int) x = x from by
    rw [jsNorm, if_neg (by omega)]
    omega]
  rw [show jsNorm (s.length : Int) 0 = 0 from by
    rw [jsNorm, if_neg (by omega)]
    omega]
  rfl

/-- An in-range `slice(x, x + L)` is a `drop` then `take`. -/
theorem jsSlice_eq_drop_take {s : List Char} {x : Int} {L : Nat} (hx : 0 ≤ x)
    (hxL : x + (L : Int) ≤ (s.length : Int)) :
    jsSlice s x (x + L) = (s.drop x.toNat).take L := by
  rw [jsSlice]
  rw [show jsNorm (s.length : Int) (x + L) = x + L from by
    rw [jsNorm, if_neg (by omega)]
    omega]
  rw [show jsNorm (s.length : Int) x = x from by
    rw [jsNorm, if_neg (by omega)]
    omega]
  rw [show (x + (L : Int)).toNat = x.toNat + L from by omega]
  rw [List.drop_take]
  rw [show x.toNat + L - x.toNat = L from by omega]

/-- An in-range `slice(x, length)` is a `drop`. -/
theorem jsSlice_eq_drop {s : List Char} {x : Int} (hx : 0 ≤ x)
    (hxl : x ≤ (s.length : Int)) :
    jsSlice s x (s.length : Int) = s.drop x.toNat := by
  rw [jsSlice]
  rw [show jsNorm (s.length : Int) (s.length : Int) = (s.length : Int) from by
    rw [jsNorm, if_neg (by omega)]
    omega]
  rw [show jsNorm (s.length : Int) x = x from by
    rw [jsNorm, if_neg (by omega)]
    omega]
  rw [show ((s.length : Int)).toNat = s.length from by omega]
  rw [List.take_length]

/-- `charAt` agrees with list indexing in range. -/
theorem charAtD_eq_getElem {s : List Char} {i : Nat} (h : i < s.length) :
    charAtD s i = s[i] := by
  rw [charAtD, List.getD_eq_getElem?_getD, List.getElem?_eq_getElem h]
  rfl

/-- Two equal in-range slices match character for character. -/
theorem charAtD_of_slice_eq {a b : List Char} {xa xb L : Nat}
    (hla : xa + L ≤ a.length) (hlb : xb + L ≤ b.length)
    (h : (a.drop xa).take L = (b.drop xb).take L) :
    ∀ t, t < L → charAtD a (xa + t) = charAtD b (xb + t) := by
  intro t ht
  have hq : ((a.drop xa).take L)[t]? = ((b.drop xb).take L)[t]? := by
    rw [h]
  rw [List.getElem?_take_of_lt ht, List.getElem?_take_of_lt ht,
    List.getElem?_drop, List.getElem?_drop] at hq
  rw [charAtD, charAtD, List.getD_eq_getElem?_getD,
    List.getD_eq_getElem?_getD, hq]

/-- The two slices of a genuine diagonal run are equal. -/
theorem run_slices_eq {a b : List Char} {i j L : Nat}
    (hi : i < a.length) (hj : j < b.length) (hL1 : 1 ≤ L)
    (hLi : L ≤ i + 1) (hLj : L ≤ j + 1)
    (hch : ∀ t, t < L → charAtD a (i - t) = charAtD b (j - t)) :
    jsSlice a ((i : Int) - L + 1) ((i : Int) - L + 1 + L)
      = jsSlice b ((j : Int) - L + 1) ((j : Int) - L + 1 + L) := by
  rw [jsSlice_eq_drop_take (by omega) (by omega),
      jsSlice_eq_drop_take (by omega) (by omega)]
  rw [show ((i : Int) - L + 1).toNat = i + 1 - L from by omega,
      show ((j : Int) - L + 1).toNat = j + 1 - L from by omega]
  apply List.ext_getElem
  · rw [List.length_take, List.length_take, List.length_drop, List.length_drop]
    omega
  · intro t h1 h2
    have ht : t < L := by
      rw [List.length_take, List.length_drop] at h1
      omega
    simp only [List.getElem_take, List.getElem_drop]
    have hident : ∀ t2, t2 < L →
        charAtD a (i + 1 - L + t2) = charAtD b (j + 1 - L + t2) := by
      intro t2 ht2
      rw [show i + 1 - L + t2 = i - (L - 1 - t2) from by omega,
          show j + 1 - L + t2 = j - (L - 1 - t2) from by omega]
      exact hch (L - 1 - t2) (by omega)
    exact ((charAtD_eq_getElem
        (show i + 1 - L + t < a.length from by omega)).symm.trans
      (hident t ht)).trans
      (charAtD_eq_getElem (show j + 1 - L + t < b.length from by omega))

/-- The scan result of `find_longest_common_slice` always passes its own
sanity check: the recorded slices are equal. -/
theorem lcsState_check (a b : List Char) :
    jsSlice a (lcsState a b).2.a_start
        ((lcsState a b).2.a_start + (lcsState a b).2.length)
      = jsSlice b (lcsState a b).2.b_start
        ((lcsState a b).2.b_start + (lcsState a b).2.length) := by
  have hex := lcsIter_exact a b a.length (Nat.le_refl _)
  rcases hex.2.2 with h0 | ⟨i, j, hi, hj, hch, hlen, has, hbs⟩
  · rw [show (lcsState a b).2 = { a_start := 0, b_start := 0, length := 0 }
      from h0]
    show jsSlice a 0 (0 + ((0 : Nat) : Int))
      = jsSlice b 0 (0 + ((0 : Nat) : Int))
    rw [show ((0 : Int) + ((0 : Nat) : Int)) = 0 from by decide]
    rw [jsSlice_zero, jsSlice_zero]
  · have hL1 : 1 ≤ runLen a b i j := by
      have := runLen_ge a b 0 i j (fun t ht => by
        have ht0 : t = 0 := by omega
        subst ht0
        exact hch) (Nat.zero_le _) (Nat.zero_le _)
      omega
    rw [show (lcsState a b).2.a_start
        = (i : Int) - (lcsState a b).2.length + 1 from has,
      show (lcsState a b).2.b_start
        = (j : Int) - (lcsState a b).2.length + 1 from hbs,
      show (lcsState a b).2.length = runLen a b i j from hlen]
    exact run_slices_eq hi hj hL1 (runLen_le_left a b i j)
      (runLen_le_right a b i j) (fun t ht => runLen_chars a b i j t ht)

/-- `find_longest_common_slice` never throws `algorithm failed`. -/
theorem findLCS_total (a b : List Char) :
    findLongestCommonSlice a b = .ok (lcsState a b).2 := by
  rw [findLongestCommonSlice, if_pos (lcsState_check a b)]

/-- The returned slice is the scan result. -/
theorem findLCS_result {a b : List Char} {m : CommonSlice}
    (h : findLongestCommonSlice a b = .ok m) : m = (lcsState a b).2 := by
  rw [findLCS_total a b] at h
  injection h with h2
  exact h2.symm

/-- The returned slice denotes equal text in `a` and `b`. -/
theorem findLCS_ok_mid {a b : List Char} {m : CommonSlice}
    (h : findLongestCommonSlice a b = .ok m) :
    jsSlice a m.a_start (m.a_start + m.length)
      = jsSlice b m.b_start (m.b_start + m.length) := by
  rw [findLCS_result h]
  exact lcsState_check a b

/-- The returned slice length dominates every diagonal run. -/
theorem findLCS_dominates {a b : List Char} {m : CommonSlice}
    (h : findLongestCommonSlice a b = .ok m) :
    ∀ i j, i < a.length → j < b.length → charAtD a i = charAtD b j →
      runLen a b i j ≤ m.length := by
  rw [findLCS_result h]
  exact (lcsIter_exact a b a.length (Nat.le_refl _)).2.1

/-- Splitting a string around an in-range slice. -/
theorem slice_decomp {s : List Char} {x : Int} {L : Nat}
    (hx : 0 ≤ x) (hxL : x + (L : Int) ≤ (s.length : Int)) :
    s = jsSlice s 0 x ++ jsSlice s x (x + L)
        ++ jsSlice s (x + L) (s.length : Int) ∧
    (jsSlice s x (x + L)).length = L := by
  have h1 : jsSlice s 0 x = s.take x.toNat := jsSlice_eq_take hx (by omega)
  have h2 : jsSlice s x (x + L) = (s.drop x.toNat).take L :=
    jsSlice_eq_drop_take hx hxL
  have h3 : jsSlice s (x + L) (s.length : Int) = s.drop (x.toNat + L) := by
    rw [jsSlice_eq_drop (by omega) (by omega)]
    rw [show (x + (L : Int)).toNat = x.toNat + L from by omega]
  constructor
  · rw [h1, h2, h3]
    rw [← List.drop_drop]
    rw [List.append_assoc, List.take_append_drop, List.take_append_drop]
  · rw [h2, List.length_take, List.length_drop]
    omega

/-- `compare` on two equal strings pushes nothing. -/
theorem comparePatchF_self (fuel : Nat) (s : List Char) :
    comparePatchF (fuel + 1) s s = .ok [] := by
  rw [comparePatchF, if_pos rfl]

/-- If the prefixes cut off by the chosen slice are equal, they are empty:
otherwise the run could be extended one character to the left, beating the
maximality of the recorded result. -/
theorem lcs_pre_empty {a b : List Char} {m : CommonSlice}
    (hm : findLongestCommonSlice a b = .ok m) (hz : m.length ≠ 0)
    (hpre : jsSlice a 0 m.a_start = jsSlice b 0 m.b_start) :
    jsSlice a 0 m.a_start = [] := by
  obtain ⟨ha0, haL, hb0, hbL⟩ := findLCS_ok_bounds hm hz
  by_contra hne
  have hA : jsSlice a 0 m.a_start = a.take m.a_start.toNat :=
    jsSlice_eq_take ha0 (by omega)
  have hB : jsSlice b 0 m.b_start = b.take m.b_start.toNat :=
    jsSlice_eq_take hb0 (by omega)
  rw [hA, hB] at hpre
  rw [hA] at hne
  have hA1 : 1 ≤ m.a_start.toNat := by
    rcases Nat.eq_zero_or_pos m.a_start.toNat with h0 | h1
    · exact absurd (by rw [h0]; rfl) hne
    · exact h1
  have hABlen := congrArg List.length hpre
  rw [List.length_take, List.length_take] at hABlen
  have hAB : m.a_start.toNat = m.b_start.toNat := by omega
  rw [← hAB] at hpre
  have hprechars := @charAtD_of_slice_eq a b 0 0 m.a_start.toNat
    (by omega) (by omega)
    (show (a.drop 0).take m.a_start.toNat = (b.drop 0).take m.a_start.toNat
      from hpre)
  have hmid := findLCS_ok_mid hm
  rw [jsSlice_eq_drop_take ha0 haL, jsSlice_eq_drop_take hb0 hbL] at hmid
  have hmidchars := @charAtD_of_slice_eq a b m.a_start.toNat m.b_start.toNat
    m.length (by omega) (by omega) hmid
  have hrun : m.length + 1 ≤ runLen a b
      (m.a_start.toNat + m.length - 1) (m.b_start.toNat + m.length - 1) := by
    apply runLen_ge
    · intro t htL
      by_cases htlt : t < m.length
      · rw [show m.a_start.toNat + m.length - 1 - t
            = m.a_start.toNat + (m.length - 1 - t) from by omega,
            show m.b_start.toNat + m.length - 1 - t
            = m.b_start.toNat + (m.length - 1 - t) from by omega]
        exact hmidchars (m.length - 1 - t) (by omega)
      · have htL2 : t = m.length := by omega
        subst htL2
        rw [show m.a_start.toNat + m.length - 1 - m.length
            = 0 + (m.a_start.toNat - 1) from by omega,
            show m.b_start.toNat + m.length - 1 - m.length
            = 0 + (m.a_start.toNat - 1) from by omega]
        exact hprechars (m.a_start.toNat - 1) (by omega)
    · omega
    · omega
  have hdom := findLCS_dominates hm (m.a_start.toNat + m.length - 1)
    (m.b_start.toNat + m.length - 1) (by omega) (by omega)
    (by
      rw [show m.a_start.toNat + m.length - 1
          = m.a_start.toNat + (m.length - 1) from by omega,
          show m.b_start.toNat + m.length - 1
          = m.b_start.toNat + (m.length - 1) from by omega]
      exact hmidchars (m.length - 1) (by omega))
  omega

/-- If the suffixes after the chosen slice are equal, they are empty:
otherwise the run could be extended one character to the right. -/
theorem lcs_suf_empty {a b : List Char} {m : CommonSlice}
    (hm : findLongestCommonSlice a b = .ok m) (hz : m.length ≠ 0)
    (hsuf : jsSlice a (m.a_start + m.length) (a.length : Int)
      = jsSlice b (m.b_start + m.length) (b.length : Int)) :
    jsSlice a (m.a_start + m.length) (a.length : Int) = [] := by
  obtain ⟨ha0, haL, hb0, hbL⟩ := findLCS_ok_bounds hm hz
  by_contra hne
  have hA : jsSlice a (m.a_start + m.length) (a.length : Int)
      = a.drop (m.a_start + (m.length : Int)).toNat :=
    jsSlice_eq_drop (by omega) (by omega)
  have hB : jsSlice b (m.b_start + m.length) (b.length : Int)
      = b.drop (m.b_start + (m.length : Int)).toNat :=
    jsSlice_eq_drop (by omega) (by omega)
  rw [hA, hB] at hsuf
  rw [hA] at hne
  have hlt : (m.a_start + (m.length : Int)).toNat < a.length := by
    by_contra hge
    exact hne (List.drop_eq_nil_of_le (by omega))
  have hltb : (m.b_start + (m.length : Int)).toNat < b.length := by
    have hl2 := congrArg List.length hsuf
    rw [List.length_drop, List.length_drop] at hl2
    omega
  have hheads : (a.drop (m.a_start + (m.length : Int)).toNat).take 1
      = (b.drop (m.b_start + (m.length : Int)).toNat).take 1 := by
    rw [hsuf]
  have hsufchar := @charAtD_of_slice_eq a b
    (m.a_start + (m.length : Int)).toNat
    (m.b_start + (m.length : Int)).toNat 1 (by omega) (by omega) hheads
  have hmid := findLCS_ok_mid hm
  rw [jsSlice_eq_drop_take ha0 haL, jsSlice_eq_drop_take hb0 hbL] at hmid
  have hmidchars := @charAtD_of_slice_eq a b m.a_start.toNat m.b_start.toNat
    m.length (by omega) (by omega) hmid
  have hrun : m.length + 1 ≤ runLen a b
      (m.a_start.toNat + m.length) (m.b_start.toNat + m.length) := by
    apply runLen_ge
    · intro t htL
      by_cases ht0 : t = 0
      · subst ht0
        rw [show m.a_start.toNat + m.length - 0
            = (m.a_start + (m.length : Int)).toNat + 0 from by omega,
            show m.b_start.toNat + m.length - 0
            = (m.b_start + (m.length : Int)).toNat + 0 from by omega]
        exact hsufchar 0 (by omega)
      · rw [show m.a_start.toNat + m.length - t
            = m.a_start.toNat + (m.length - t) from by omega,
            show m.b_start.toNat + m.length - t
            = m.b_start.toNat + (m.length - t) from by omega]
        exact hmidchars (m.length - t) (by omega)
    · omega
    · omega
  have hdom := findLCS_dominates hm (m.a_start.toNat + m.length)
    (m.b_start.toNat + m.length) (by omega) (by omega)
    (by
      rw [show m.a_start.toNat + m.length
          = (m.a_start + (m.length : Int)).toNat + 0 from by omega,
          show m.b_start.toNat + m.length
          = (m.b_start + (m.length : Int)).toNat + 0 from by omega]
      exact hsufchar 0 (by omega))
  omega

/-- Correctness and totality of `compare`: on distinct strings (with
enough fuel) it succeeds, and the emitted ops transform `a` into `b`,
consuming exactly `a` and passing any trailing input through. -/
theorem comparePatchF_correct : ∀ (fuel : Nat) (a b : List Char),
    a.length < fuel → a ≠ b →
    ∃ p, comparePatchF fuel a b = .ok p ∧
      ∀ tail, runPatch p (a ++ tail) = (b, tail) := by
  intro fuel
  induction fuel with
  | zero => intro a b h _; exact absurd h (by omega)
  | succ f ih =>
    intro a b hlen hne
    rw [comparePatchF, if_neg hne, findLCS_total a b]
    simp only
    by_cases hz : (lcsState a b).2.length = 0
    · rw [if_pos hz]
      refine ⟨_, rfl, ?_⟩
      intro tail
      by_cases ha0 : a = []
      · have hb0 : b ≠ [] := fun hb => hne (by rw [ha0, hb])
        rw [if_pos ha0, if_neg hb0]
        subst ha0
        show (b ++ (runPatch [] tail).1, (runPatch [] tail).2) = (b, tail)
        show (b ++ [], tail) = (b, tail)
        rw [List.append_nil]
      · rw [if_neg ha0]
        by_cases hb0 : b = []
        · rw [if_pos hb0]
          subst hb0
          show runPatch ([PatchOp.del a.length] ++ []) (a ++ tail) = ([], tail)
          rw [List.append_nil]
          show runPatch [] ((a ++ tail).drop a.length) = ([], tail)
          rw [List.drop_left]
          rfl
        · rw [if_neg hb0]
          show runPatch [PatchOp.insert b] ((a ++ tail).drop a.length)
            = (b, tail)
          rw [List.drop_left]
          show (b ++ (runPatch [] tail).1, (runPatch [] tail).2) = (b, tail)
          show (b ++ [], tail) = (b, tail)
          rw [List.append_nil]
    · rw [if_neg hz]
      obtain ⟨ha0, haL, hb0, hbL⟩ := findLCS_ok_bounds (findLCS_total a b) hz
      obtain ⟨hdecA, hlenA⟩ := @slice_decomp a (lcsState a b).2.a_start
        (lcsState a b).2.length ha0 haL
      obtain ⟨hdecB, hlenB⟩ := @slice_decomp b (lcsState a b).2.b_start
        (lcsState a b).2.length hb0 hbL
      have hmid := findLCS_ok_mid (findLCS_total a b)
      have hlenA2 : (jsSlice a 0 (lcsState a b).2.a_start).length < f := by
        have := jsSlice_zero_length_lt ha0 (by omega) haL
        omega
      have hlenS2 : (jsSlice a
          ((lcsState a b).2.a_start + (lcsState a b).2.length)
          (a.length : Int)).length < f := by
        have := jsSlice_suffix_length_lt ha0 (by omega) haL
        omega
      have hpre : ∃ p1, comparePatchF f (jsSlice a 0 (lcsState a b).2.a_start)
            (jsSlice b 0 (lcsState a b).2.b_start) = .ok p1 ∧
          ∀ t2, runPatch p1 (jsSlice a 0 (lcsState a b).2.a_start ++ t2)
            = (jsSlice b 0 (lcsState a b).2.b_start, t2) := by
        by_cases heq : jsSlice a 0 (lcsState a b).2.a_start
            = jsSlice b 0 (lcsState a b).2.b_start
        · have hnilA := lcs_pre_empty (findLCS_total a b) hz heq
          have hnilB : jsSlice b 0 (lcsState a b).2.b_start = [] := by
            rw [← heq]
            exact hnilA
          refine ⟨[], ?_, ?_⟩
          · rw [hnilA, hnilB]
            obtain ⟨f2, rfl⟩ : ∃ f2, f = f2 + 1 := ⟨f - 1, by omega⟩
            exact comparePatchF_self f2 []
          · intro t2
            rw [hnilA, hnilB]
            rfl
        · exact ih (jsSlice a 0 (lcsState a b).2.a_start)
            (jsSlice b 0 (lcsState a b).2.b_start) hlenA2 heq
      have hsuf : ∃ p2, comparePatchF f
            (jsSlice a ((lcsState a b).2.a_start + (lcsState a b).2.length)
              (a.length : Int))
            (jsSlice b ((lcsState a b).2.b_start + (lcsState a b).2.length)
              (b.length : Int)) = .ok p2 ∧
          ∀ t2, runPatch p2
              (jsSlice a ((lcsState a b).2.a_start + (lcsState a b).2.length)
                (a.length : Int) ++ t2)
            = (jsSlice b ((lcsState a b).2.b_start + (lcsState a b).2.length)
                (b.length : Int), t2) := by
        by_cases heq : jsSlice a
            ((lcsState a b).2.a_start + (lcsState a b).2.length)
            (a.length : Int)
            = jsSlice b ((lcsState a b).2.b_start + (lcsState a b).2.length)
              (b.length : Int)
        · have hnilA := lcs_suf_empty (findLCS_total a b) hz heq
          have hnilB : jsSlice b
              ((lcsState a b).2.b_start + (lcsState a b).2.length)
              (b.length : Int) = [] := by
            rw [← heq]
            exact hnilA
          refine ⟨[], ?_, ?_⟩
          · rw [hnilA, hnilB]
            obtain ⟨f2, rfl⟩ : ∃ f2, f = f2 + 1 := ⟨f - 1, by omega⟩
            exact comparePatchF_self f2 []
          · intro t2
            rw [hnilA, hnilB]
            rfl
        · exact ih _ _ hlenS2 heq
      obtain ⟨p1, hp1, hrun1⟩ := hpre
      obtain ⟨p2, hp2, hrun2⟩ := hsuf
      rw [hp1, hp2]
      simp only
      refine ⟨_, rfl, ?_⟩
      intro tail
      have hsplit : a ++ tail
          = jsSlice a 0 (lcsState a b).2.a_start
            ++ (jsSlice a (lcsState a b).2.a_start
                  ((lcsState a b).2.a_start + (lcsState a b).2.length)
                ++ (jsSlice a
                      ((lcsState a b).2.a_start + (lcsState a b).2.length)
                      (a.length : Int) ++ tail)) := by
        conv_lhs => rw [hdecA]
        simp [List.append_assoc]
      rw [hsplit, runPatch_append, hrun1]
      simp only
      have eret : runPatch (PatchOp.retain (lcsState a b).2.length :: p2)
          (jsSlice a (lcsState a b).2.a_start
              ((lcsState a b).2.a_start + (lcsState a b).2.length)
            ++ (jsSlice a ((lcsState a b).2.a_start + (lcsState a b).2.length)
                  (a.length : Int) ++ tail))
          = ((jsSlice a (lcsState a b).2.a_start
                ((lcsState a b).2.a_start + (lcsState a b).2.length)
              ++ (jsSlice a
                    ((lcsState a b).2.a_start + (lcsState a b).2.length)
                    (a.length : Int) ++ tail)).take (lcsState a b).2.length
              ++ (runPatch p2 ((jsSlice a (lcsState a b).2.a_start
                    ((lcsState a b).2.a_start + (lcsState a b).2.length)
                  ++ (jsSlice a
                        ((lcsState a b).2.a_start + (lcsState a b).2.length)
                        (a.length : Int) ++ tail)).drop
                    (lcsState a b).2.length)).1,
             (runPatch p2 ((jsSlice a (lcsState a b).2.a_start
                    ((lcsState a b).2.a_start + (lcsState a b).2.length)
                  ++ (jsSlice a
                        ((lcsState a b).2.a_start + (lcsState a b).2.length)
                        (a.length : Int) ++ tail)).drop
                    (lcsState a b).2.length)).2) := rfl
      rw [eret, List.take_left' hlenA, List.drop_left' hlenA, hrun2]
      simp only
      have hbeq : jsSlice b 0 (lcsState a b).2.b_start
          ++ (jsSlice a (lcsState a b).2.a_start
                ((lcsState a b).2.a_start + (lcsState a b).2.length)
              ++ jsSlice b
                  ((lcsState a b).2.b_start + (lcsState a b).2.length)
                  (b.length : Int))
          = b := by
        rw [hmid]
        conv_rhs => rw [hdecB]
        simp [List.append_assoc]
      rw [hbeq]

/-! ### Claim theorems -/

/-- Claim C1: two concurrent `addRight` ops at the same anchor converge.
Concretely, replicas 0 and 1 typing `X` and `Y` at the left edge both end
at `YX` after exchange.  In general, integrating two addRight ops naming
the same predecessor in either delivery order yields the same observable
node list and text, with the larger-timestamp node placed first. -/
theorem addRight_same_anchor_commutes :
    (concurrentInsertScenario.map (fun p => text p.1) = .ok "YX".toList ∧
     concurrentInsertScenario.map (fun p => text p.2) = .ok "YX".toList) ∧
    ∀ (r : Replica) (t : Int) (pv : Option Nat) (p : Nat) (w1 w2 : Wchar),
      idxLookup r.index t = some pv → predPos r pv = .ok p →
      w1.timestamp ≠ t → w2.timestamp ≠ t → w2.timestamp < w1.timestamp →
      ∃ r12 r21,
        applyOps r [.addRight t w1, .addRight t w2] = .ok r12 ∧
        applyOps r [.addRight t w2, .addRight t w1] = .ok r21 ∧
        projNodes r12.nodes = projNodes r21.nodes ∧
        text r12 = text r21 ∧
        ∃ A B C, projNodes r12.nodes
          = A ++ (w1.timestamp, w1.atom, false) :: B
              ++ (w2.timestamp, w2.atom, false) :: C := by
  constructor
  · exact ⟨by decide, by decide⟩
  intro r t pv p w1 w2 hlk hpp h1t h2t hlt
  have hlen : (r.nodes.take p).length = p := by
    rw [List.length_take]
    exact min_eq_left (predPos_le hpp)
  have e1 := @downstreamAddRight_ok r _ _ _ w1 hlk hpp
  have e1b := @downstreamAddRight_ok r _ _ _ w2 hlk hpp
  have step2 : ∀ (wa : Wchar), wa.timestamp ≠ t →
      idxLookup (idxSet r.index wa.timestamp (some r.nextUid)) t = some pv := by
    intro wa hwa
    rw [idxLookup_idxSet, if_neg (fun hh => hwa hh.symm)]
    exact hlk
  have hR1 : ∀ (wa : Wchar),
      predPos { r with
        nodes := r.nodes.take p ++ insTs wa r.nextUid (r.nodes.drop p),
        index := idxSet r.index wa.timestamp (some r.nextUid),
        nextTimestamp :=
          if r.nextTimestamp ≤ wa.timestamp
          then jsShl16 (jsShrU16 wa.timestamp + 1) + (r.id : Int)
          else r.nextTimestamp,
        nextUid := r.nextUid + 1 } pv = .ok p := by
    intro wa
    exact predPos_stable rfl hpp
  have e2 := @downstreamAddRight_ok { r with
      nodes := r.nodes.take p ++ insTs w1 r.nextUid (r.nodes.drop p),
      index := idxSet r.index w1.timestamp (some r.nextUid),
      nextTimestamp :=
        if r.nextTimestamp ≤ w1.timestamp
        then jsShl16 (jsShrU16 w1.timestamp + 1) + (r.id : Int)
        else r.nextTimestamp,
      nextUid := r.nextUid + 1 } _ _ _ w2 (step2 w1 h1t) (hR1 w1)
  have e2b := @downstreamAddRight_ok { r with
      nodes := r.nodes.take p ++ insTs w2 r.nextUid (r.nodes.drop p),
      index := idxSet r.index w2.timestamp (some r.nextUid),
      nextTimestamp :=
        if r.nextTimestamp ≤ w2.timestamp
        then jsShl16 (jsShrU16 w2.timestamp + 1) + (r.id : Int)
        else r.nextTimestamp,
      nextUid := r.nextUid + 1 } _ _ _ w1 (step2 w2 h2t) (hR1 w2)
  have hA := (@applyOps_cons_ok _ _ (Op.addRight t w1)
      [Op.addRight t w2] e1).trans
    ((@applyOps_cons_ok _ _ (Op.addRight t w2) ([] : List Op) e2).trans
      (applyOps_nil _))
  have hB := (@applyOps_cons_ok _ _ (Op.addRight t w2)
      [Op.addRight t w1] e1b).trans
    ((@applyOps_cons_ok _ _ (Op.addRight t w1) ([] : List Op) e2b).trans
      (applyOps_nil _))
  have hP : projNodes
        ((r.nodes.take p ++ insTs w1 r.nextUid (r.nodes.drop p)).take p
          ++ insTs w2 (r.nextUid + 1)
              ((r.nodes.take p ++ insTs w1 r.nextUid (r.nodes.drop p)).drop p))
      = projNodes
        ((r.nodes.take p ++ insTs w2 r.nextUid (r.nodes.drop p)).take p
          ++ insTs w1 (r.nextUid + 1)
              ((r.nodes.take p ++ insTs w2 r.nextUid (r.nodes.drop p)).drop p)) := by
    rw [List.take_left' hlen, List.drop_left' hlen,
        List.take_left' hlen, List.drop_left' hlen]
    show (r.nodes.take p
        ++ insTs w2 (r.nextUid + 1) (insTs w1 r.nextUid (r.nodes.drop p))).map
          projNode
      = (r.nodes.take p
        ++ insTs w1 (r.nextUid + 1) (insTs w2 r.nextUid (r.nodes.drop p))).map
          projNode
    rw [List.map_append, List.map_append]
    rw [show (insTs w2 (r.nextUid + 1) (insTs w1 r.nextUid (r.nodes.drop p))).map
          projNode
        = (insTs w1 (r.nextUid + 1) (insTs w2 r.nextUid (r.nodes.drop p))).map
          projNode from
      insTs_insTs_proj hlt r.nextUid (r.nextUid + 1) (r.nextUid + 1) r.nextUid
        (r.nodes.drop p)]
  have hT : textNodes
        ((r.nodes.take p ++ insTs w1 r.nextUid (r.nodes.drop p)).take p
          ++ insTs w2 (r.nextUid + 1)
              ((r.nodes.take p ++ insTs w1 r.nextUid (r.nodes.drop p)).drop p))
      = textNodes
        ((r.nodes.take p ++ insTs w2 r.nextUid (r.nodes.drop p)).take p
          ++ insTs w1 (r.nextUid + 1)
              ((r.nodes.take p ++ insTs w2 r.nextUid (r.nodes.drop p)).drop p)) :=
    textNodes_proj hP
  have hD : ∃ A B C, projNodes
        ((r.nodes.take p ++ insTs w1 r.nextUid (r.nodes.drop p)).take p
          ++ insTs w2 (r.nextUid + 1)
              ((r.nodes.take p ++ insTs w1 r.nextUid (r.nodes.drop p)).drop p))
      = A ++ (w1.timestamp, w1.atom, false) :: B
          ++ (w2.timestamp, w2.atom, false) :: C := by
    obtain ⟨A, B, C, hABC⟩ :=
      insTs_insTs_decomp hlt r.nextUid (r.nextUid + 1) (r.nodes.drop p)
    refine ⟨(r.nodes.take p).map projNode ++ A.map projNode, B.map projNode,
      C.map projNode, ?_⟩
    rw [List.take_left' hlen, List.drop_left' hlen]
    show (r.nodes.take p
        ++ insTs w2 (r.nextUid + 1) (insTs w1 r.nextUid (r.nodes.drop p))).map
          projNode = _
    rw [hABC]
    simp only [List.map_append, List.map_cons, List.append_assoc]
    rfl
  exact ⟨_, _, hA, hB, hP, hT, hD⟩

/-- Witness for claim C1 at a concrete instance: empty replica 0, anchor
at the left edge, `Y` with timestamp 65537 and `X` with timestamp 5. -/
theorem addRight_same_anchor_commutes_witness :
    (idxLookup (mkRGA 0).index (-1) = some none ∧
     predPos (mkRGA 0) none = .ok 0 ∧
     ({ timestamp := 65537, atom := 'Y' } : Wchar).timestamp ≠ -1 ∧
     ({ timestamp := 5, atom := 'X' } : Wchar).timestamp ≠ -1 ∧
     ({ timestamp := 5, atom := 'X' } : Wchar).timestamp
       < ({ timestamp := 65537, atom := 'Y' } : Wchar).timestamp) ∧
    (∃ r12 r21,
      applyOps (mkRGA 0) [.addRight (-1) { timestamp := 65537, atom := 'Y' },
        .addRight (-1) { timestamp := 5, atom := 'X' }] = .ok r12 ∧
      applyOps (mkRGA 0) [.addRight (-1) { timestamp := 5, atom := 'X' },
        .addRight (-1) { timestamp := 65537, atom := 'Y' }] = .ok r21 ∧
      projNodes r12.nodes = projNodes r21.nodes ∧
      text r12 = text r21 ∧
      ∃ A B C, projNodes r12.nodes
        = A ++ (({ timestamp := 65537, atom := 'Y' } : Wchar).timestamp,
                ({ timestamp := 65537, atom := 'Y' } : Wchar).atom, false) :: B
            ++ (({ timestamp := 5, atom := 'X' } : Wchar).timestamp,
                ({ timestamp := 5, atom := 'X' } : Wchar).atom, false) :: C) :=
  ⟨⟨by decide, by decide, by decide, by decide, by decide⟩,
   addRight_same_anchor_commutes.2 (mkRGA 0) (-1) none 0
     { timestamp := 65537, atom := 'Y' } { timestamp := 5, atom := 'X' }
     (by decide) (by decide) (by decide) (by decide) (by decide)⟩

/-- Claim C4, amended: duplicate delivery is not idempotent.  Every
successful downstream addRight splices a fresh node (so re-delivery
always changes the state), and a downstream remove of an
already-tombstoned target raises an error in `lib/rga.js` while the
`part_003` variant leaves the state exactly unchanged. -/
theorem duplicate_delivery_behavior :
    (∀ (r r2 : Replica) (t : Int) (w : Wchar),
        downstreamAddRight r t w = .ok r2 →
        r2.nodes.length = r.nodes.length + 1) ∧
    (∀ (r : Replica) (t : Int) (u i : Nat),
        idxLookup r.index t = some (some u) → uidPos r.nodes u = some i →
        (r.nodes.getD i defaultNode).removed = true →
        downstreamRemove r t = .error "downstream: element already removed" ∧
        downstreamRemoveP3 r t = .ok r) := by
  constructor
  · intro r r2 t w h
    exact downstreamAddRight_length h
  · intro r t u i hlk hu hrm
    constructor
    · rw [downstreamRemove, hlk]
      simp only
      rw [hu]
      simp only
      rw [if_pos hrm]
    · rw [downstreamRemoveP3, hlk]
      simp only
      rw [hu]
      simp only
      have hsame : { r.nodes.getD i defaultNode with removed := true }
          = r.nodes.getD i defaultNode := by
        cases hn : r.nodes.getD i defaultNode with
        | mk uu tt aa rr =>
          rw [hn] at hrm
          simp only at hrm
          rw [hrm]
      rw [hsame, list_set_getD_self r.nodes i (uidPos_lt_length hu)]

/-- Witness for claim C4 at concrete states: a replica holding one node
with timestamp 5 (live for the addRight part, tombstoned for the remove
part). -/
theorem duplicate_delivery_behavior_witness :
    (downstreamAddRight (mkRGA 0) (-1) { timestamp := 5, atom := 'X' }
        = .ok dupR2 ∧
     dupR2.nodes.length = (mkRGA 0).nodes.length + 1) ∧
    ((idxLookup tombR.index 5 = some (some 0) ∧
      uidPos tombR.nodes 0 = some 0 ∧
      (tombR.nodes.getD 0 defaultNode).removed = true) ∧
     (downstreamRemove tombR 5 = .error "downstream: element already removed" ∧
      downstreamRemoveP3 tombR 5 = .ok tombR)) :=
  ⟨⟨by decide,
    duplicate_delivery_behavior.1 (mkRGA 0) dupR2 (-1)
      { timestamp := 5, atom := 'X' } (by decide)⟩,
   ⟨⟨by decide, by decide, by decide⟩,
    duplicate_delivery_behavior.2 tombR 5 0 0 (by decide) (by decide) (by decide)⟩⟩

/-- Claim C7, amended: the sentinel stays unremoved as long as no op is
`remove(LEFT)`: a single downstream step preserves the flag (and the
property that only `-1` resolves to the sentinel), any op sequence from a
fresh replica avoiding `remove(-1)` keeps the flag false, and the public
`addRight`, non-sentinel `remove` and `insertRowColumn` preserve it. -/
theorem left_sentinel_preserved :
    (∀ (r r2 : Replica) (op : Op), applyOp r op = .ok r2 →
        isRemoveLeft op = false → SentinelOnlyLeft r → r.leftRemoved = false →
        r2.leftRemoved = false ∧ SentinelOnlyLeft r2) ∧
    (∀ (id : Nat) (ops : List Op) (r2 : Replica),
        (∀ op ∈ ops, isRemoveLeft op = false) →
        applyOps (mkRGA id) ops = .ok r2 → r2.leftRemoved = false) ∧
    (∀ (r r2 : Replica) (t : Int) (a : Char) (ts : Int),
        addRight r t a = .ok (r2, ts) → r.leftRemoved = false →
        r2.leftRemoved = false) ∧
    (∀ (r r2 : Replica) (t : Int), t ≠ -1 → SentinelOnlyLeft r →
        remove r t = .ok r2 → r.leftRemoved = false → r2.leftRemoved = false) ∧
    (∀ (r r2 : Replica) (line col : Nat) (s : List Char),
        insertRowColumn r line col s = .ok r2 → r.leftRemoved = false →
        r2.leftRemoved = false) := by
  have hstep : ∀ (r r2 : Replica) (op : Op), applyOp r op = .ok r2 →
      isRemoveLeft op = false → SentinelOnlyLeft r → r.leftRemoved = false →
      r2.leftRemoved = false ∧ SentinelOnlyLeft r2 := by
    intro r r2 op h hop hS hL
    cases op with
    | addRight t w =>
      have h2 : downstreamAddRight r t w = .ok r2 := h
      constructor
      · rw [downstreamAddRight_left h2, hL]
      · exact downstreamAddRight_sentinel h2 hS
    | remove t =>
      have hne : t ≠ -1 := by
        simp only [isRemoveLeft] at hop
        simpa using hop
      have h2 : downstreamRemove r t = .ok r2 := h
      obtain ⟨hl2, hi2⟩ := downstreamRemove_left hne hS h2
      refine ⟨by rw [hl2, hL], ?_⟩
      intro t2 ht2
      rw [hi2] at ht2
      exact hS t2 ht2
  have hchars : ∀ (s : List Char) (r r2 : Replica) (u : Int),
      insertChars r u s = .ok r2 → r.leftRemoved = false →
      r2.leftRemoved = false := by
    intro s
    induction s with
    | nil =>
      intro r r2 u h hL
      rw [insertChars] at h
      injection h with h2
      rw [← h2]
      exact hL
    | cons c rest ih =>
      intro r r2 u h hL
      rw [insertChars] at h
      rw [show mint r = (r.nextTimestamp,
        { r with nextTimestamp := r.nextTimestamp + 65536 }) from rfl] at h
      simp only at h
      cases hda : downstreamAddRight
          { r with nextTimestamp := r.nextTimestamp + 65536 } u
          { timestamp := r.nextTimestamp, atom := c } with
      | error e =>
        rw [hda] at h
        cases h
      | ok rmid =>
        rw [hda] at h
        refine ih rmid r2 r.nextTimestamp h ?_
        rw [downstreamAddRight_left hda]
        exact hL
  refine ⟨hstep, ?_, ?_, ?_, ?_⟩
  · intro id ops
    have hS0 : SentinelOnlyLeft (mkRGA id) := by
      intro t h
      by_cases hc : t = -1
      · exact hc
      · exfalso
        have h2 : (if (-1 : Int) = t then some (none : Option Nat) else none)
            = some none := h
        rw [if_neg (fun hh => hc hh.symm)] at h2
        cases h2
    have main : ∀ (ops2 : List Op) (r : Replica),
        SentinelOnlyLeft r → r.leftRemoved = false →
        (∀ op ∈ ops2, isRemoveLeft op = false) →
        ∀ r2, applyOps r ops2 = .ok r2 → r2.leftRemoved = false := by
      intro ops2
      induction ops2 with
      | nil =>
        intro r hS hL _ r2 h
        rw [applyOps] at h
        injection h with h2
        rw [← h2]
        exact hL
      | cons op rest ih =>
        intro r hS hL hops r2 h
        rw [applyOps] at h
        cases hap : applyOp r op with
        | error e => rw [hap] at h; cases h
        | ok rmid =>
          rw [hap] at h
          obtain ⟨hL2, hS2⟩ := hstep r rmid op hap
            (hops op (List.mem_cons_self op rest)) hS hL
          exact ih rmid hS2 hL2
            (fun o ho => hops o (List.mem_cons_of_mem op ho)) r2 h
    intro r2 hops h
    exact main ops (mkRGA id) hS0 rfl hops r2 h
  · intro r r2 t a ts h hL
    rw [addRight] at h
    cases hlk : idxLookup r.index t with
    | none => rw [hlk] at h; cases h
    | some pv =>
      rw [hlk] at h
      simp only at h
      by_cases hpr : predRemoved r pv
      · rw [if_pos hpr] at h; cases h
      · rw [if_neg hpr] at h
        rw [show mint r = (r.nextTimestamp,
          { r with nextTimestamp := r.nextTimestamp + 65536 }) from rfl] at h
        simp only at h
        cases hda : downstreamAddRight
            { r with nextTimestamp := r.nextTimestamp + 65536 } t
            { timestamp := r.nextTimestamp, atom := a } with
        | error e => rw [hda] at h; cases h
        | ok rr =>
          rw [hda] at h
          injection h with h2
          have : rr = r2 := congrArg Prod.fst h2
          rw [← this, downstreamAddRight_left hda]
          exact hL
  · intro r r2 t hne hS h hL
    rw [remove] at h
    by_cases hlv : lookupLive r t
    · rw [if_pos hlv] at h
      rw [(downstreamRemove_left hne hS h).1]
      exact hL
    · rw [if_neg hlv] at h
      cases h
  · intro r r2 line col s h hL
    rw [insertRowColumn] at h
    cases hg : getNodeAtTs r line col with
    | error e => rw [hg] at h; cases h
    | ok u =>
      rw [hg] at h
      exact hchars s r r2 u h hL

/-- Witness for claim C7 at a concrete instance: one addRight op applied
to a fresh replica leaves the sentinel unremoved. -/
theorem left_sentinel_preserved_witness :
    ((∀ op ∈ [Op.addRight (-1) { timestamp := 5, atom := 'X' }],
        isRemoveLeft op = false) ∧
     applyOps (mkRGA 0) [Op.addRight (-1) { timestamp := 5, atom := 'X' }]
       = .ok dupR2) ∧
    dupR2.leftRemoved = false :=
  ⟨⟨by decide, by decide⟩,
   left_sentinel_preserved.2.1 0
     [Op.addRight (-1) { timestamp := 5, atom := 'X' }] dupR2
     (by decide) (by decide)⟩

/-- Claim C8, amended: the counter advances exactly when the whole
foreign timestamp is at least the local `_nextTimestamp` (a tie in the
counter portions with a smaller foreign replica id does not advance), and
when it advances the next minted timestamp has counter portion
`(t >>> 16) + 1`. -/
theorem counter_advance_behavior :
    ∀ (idl idf cl cf : Nat) (a : Char),
      idl < 65536 → idf < 65536 → cl < 32768 → cf < 32767 →
      ((applyOp (replicaAt idl ((cl : Int) * 65536 + idl))
          (.addRight (-1)
            { timestamp := (cf : Int) * 65536 + idf, atom := a })).map
          (fun r2 => r2.nextTimestamp)
        = .ok (if (cl : Int) * 65536 + idl ≤ (cf : Int) * 65536 + idf
               then ((cf : Int) + 1) * 65536 + idl
               else (cl : Int) * 65536 + idl)) ∧
      ((cl : Int) * 65536 + idl ≤ (cf : Int) * 65536 + idf →
        (applyOp (replicaAt idl ((cl : Int) * 65536 + idl))
            (.addRight (-1)
              { timestamp := (cf : Int) * 65536 + idf, atom := a })).map
            (fun r2 => jsShrU16 (mint r2).1)
          = .ok (jsShrU16 ((cf : Int) * 65536 + idf) + 1)) := by
  intro idl idf cl cf a hidl hidf hcl hcf
  have hok := @downstreamAddRight_ok
    (replicaAt idl ((cl : Int) * 65536 + idl)) _ _ _
    { timestamp := (cf : Int) * 65536 + idf, atom := a }
    (show idxLookup (replicaAt idl ((cl : Int) * 65536 + idl)).index (-1)
      = some none from rfl)
    (show predPos (replicaAt idl ((cl : Int) * 65536 + idl)) none
      = .ok 0 from rfl)
  have hshr : jsShrU16 ((cf : Int) * 65536 + idf) = cf := by
    rw [jsShrU16, toUint32]
    rw [Int.emod_eq_of_lt (by positivity) (by omega)]
    omega
  have hshl : jsShl16 ((cf : Int) + 1) = ((cf : Int) + 1) * 65536 := by
    have hm : ((cf : Int) + 1) * 65536 % 4294967296 = ((cf : Int) + 1) * 65536 :=
      Int.emod_eq_of_lt (by positivity) (by omega)
    rw [jsShl16, toInt32, hm]
    rw [if_pos (show ((cf : Int) + 1) * 65536 < 2147483648 by omega)]
  have happ : applyOp (replicaAt idl ((cl : Int) * 65536 + idl))
      (.addRight (-1) { timestamp := (cf : Int) * 65536 + idf, atom := a })
      = downstreamAddRight (replicaAt idl ((cl : Int) * 65536 + idl)) (-1)
        { timestamp := (cf : Int) * 65536 + idf, atom := a } := rfl
  constructor
  · rw [happ, hok]
    simp only [Except.map, mint, replicaAt]
    by_cases hc : (cl : Int) * 65536 + idl ≤ (cf : Int) * 65536 + idf
    · rw [if_pos hc, if_pos hc, hshr, hshl]
    · rw [if_neg hc, if_neg hc]
  · intro hc
    rw [happ, hok]
    simp only [Except.map, mint, replicaAt]
    rw [if_pos hc, hshr, hshl]
    have h2 : jsShrU16 (((cf : Int) + 1) * 65536 + idl) = (cf : Int) + 1 := by
      rw [jsShrU16, toUint32]
      rw [Int.emod_eq_of_lt (by omega) (by omega)]
      omega
    rw [h2]

/-- Witness for claim C8 at a concrete instance: local replica id 0 with
counter 0, foreign timestamp with counter 1 and id 1. -/
theorem counter_advance_behavior_witness :
    ((0 : Nat) < 65536 ∧ (1 : Nat) < 65536 ∧ (0 : Nat) < 32768 ∧
     (1 : Nat) < 32767) ∧
    (((applyOp (replicaAt 0 ((0 : Int) * 65536 + 0))
        (.addRight (-1)
          { timestamp := (1 : Int) * 65536 + 1, atom := 'a' })).map
        (fun r2 => r2.nextTimestamp)
      = .ok (if (0 : Int) * 65536 + 0 ≤ (1 : Int) * 65536 + 1
             then ((1 : Int) + 1) * 65536 + 0
             else (0 : Int) * 65536 + 0)) ∧
     ((0 : Int) * 65536 + 0 ≤ (1 : Int) * 65536 + 1 →
       (applyOp (replicaAt 0 ((0 : Int) * 65536 + 0))
          (.addRight (-1)
            { timestamp := (1 : Int) * 65536 + 1, atom := 'a' })).map
          (fun r2 => jsShrU16 (mint r2).1)
        = .ok (jsShrU16 ((1 : Int) * 65536 + 1) + 1))) := by
  constructor
  · exact ⟨by decide, by decide, by decide, by decide⟩
  · have h := counter_advance_behavior 0 1 0 1 'a'
      (by decide) (by decide) (by decide) (by decide)
    exact_mod_cast h

/-- Claim C2: slow-editor reconciliation.  With the RGA and the editor
both holding `HOME RUN` and the editor deletion of the space still queued,
delivering the remote `addRight` of `*` (anchored after the predecessor of
the space) first folds the pending deletion into a remove op
(`takeUserEdits`) and then applies the insert to the editor, leaving the
replica text, the editor-replica text, the editor value and `lastText`
all equal to `HOME*RUN`; draining the stale editor change event afterwards
changes nothing. -/
theorem slow_editor_reconciliation :
    slowEditorScenario.map (fun p => text p.1.rga) = .ok "HOME*RUN".toList ∧
    slowEditorScenario.map (fun p => text p.1.er) = .ok "HOME*RUN".toList ∧
    slowEditorScenario.map (fun p => joinLines p.1.lines) = .ok "HOME*RUN".toList ∧
    slowEditorScenario.map (fun p => p.1.lastText) = .ok "HOME*RUN".toList ∧
    slowEditorScenario.map (fun p => p.2)
      = slowEditorScenario.map (fun p => { p.1 with pending := 0 }) := by
  decide

/-- Claim C3: two tied replicas holding `grin` both remove the final `n`
(timestamp `3 * 65536`) concurrently; both then read `gri` — but in the
`lib/rga.js` variant cited by the spec, delivering either remove op to the
other replica raises `downstream: element already removed` instead of
being a no-op.  The later `AceEditorRGA` variant (`src/unnamed/part_003`)
implements the claimed no-op and leaves the text at `gri`. -/
theorem concurrent_remove_same_target :
    concurrentRemoveScenario.map (fun p => text p.1) = .ok "gri".toList ∧
    concurrentRemoveScenario.map (fun p => text p.2) = .ok "gri".toList ∧
    concurrentRemoveScenario.bind (fun p => applyOp p.2 (.remove (3 * 65536)))
      = .error "downstream: element already removed" ∧
    concurrentRemoveScenario.bind (fun p => applyOp p.1 (.remove (3 * 65536)))
      = .error "downstream: element already removed" ∧
    (concurrentRemoveScenario.bind
        (fun p => downstreamRemoveP3 p.2 (3 * 65536))).map text
      = .ok "gri".toList ∧
    concurrentRemoveScenario.bind (fun p => downstreamRemoveP3 p.2 (3 * 65536))
      = concurrentRemoveScenario.map (fun p => p.2) := by
  decide

/-- Claim C4, counterexample: integrating the identical addRight op a
second time does not leave the state unchanged — the node is spliced
again and the text doubles; and re-integrating a remove of the
already-tombstoned node raises an error rather than being accepted. -/
theorem duplicate_delivery_cex :
    dupAddOnce.map text = .ok "X".toList ∧
    dupAddTwice.map text = .ok "XX".toList ∧
    dupAddTwice ≠ dupAddOnce ∧
    (dupAddOnce.bind (fun r => applyOp r (.remove 5))).bind
        (fun r => applyOp r (.remove 5))
      = .error "downstream: element already removed" := by
  decide

/-- Claim C7, counterexample: the public `remove` accepts the sentinel
timestamp `LEFT = -1` (the sentinel is present and not removed, so the
stated precondition holds) and tombstones the sentinel head node. -/
theorem remove_left_tombstones_sentinel :
    (remove (mkRGA 0) (-1)).map (fun r => r.leftRemoved) = .ok true := by
  decide

/-- Claim C8, counterexample: on replica id 1 (counter portion of
`_nextTimestamp` is `0`), a foreign addRight with timestamp `0` has
counter portion `0 ≥ 0`, yet the code does not advance the counter
(`0 >= 1` fails), so the next minted timestamp has counter portion `0`,
not the claimed `(t >>> 16) + 1 = 1`. -/
theorem counter_advance_tie_cex :
    jsShrU16 0 = jsShrU16 (mkRGA 1).nextTimestamp ∧
    (applyOp (mkRGA 1) (.addRight (-1) { timestamp := 0, atom := 'a' })).map
        (fun r => jsShrU16 (mint r).1) = .ok 0 ∧
    jsShrU16 0 + 1 ≠ (0 : Int) := by
  decide

/-- Claim C5: constructing a fresh replica (any valid id) from `history r`
succeeds and reproduces the whole observable node list — timestamps,
atoms and tombstone flags in order — and hence the text of `r`. -/
theorem history_roundtrip (r : Replica) (id2 : Nat) (hid : id2 < 65536) :
    ∃ r2, newReplica id2 (history r) = .ok r2 ∧
      projNodes r2.nodes = projNodes r.nodes ∧ text r2 = text r := by
  obtain ⟨r2, happ, hproj⟩ := replay_aux r.nodes (mkRGA id2) (-1) none
    (by show idxLookup [((-1 : Int), (none : Option Nat))] (-1) = some none
        rw [idxLookup, if_pos rfl])
    rfl (by intro n hn; cases hn)
  have hp : projNodes r2.nodes = projNodes r.nodes := by
    rw [hproj]
    rfl
  exact ⟨r2, by rw [newReplica, if_pos hid]; exact happ, hp, textNodes_proj hp⟩

/-- Claim C5 witness: round-trip on a concrete replica holding a live `X`
and a tombstoned sentinel flag state, rebuilt on replica id 7. -/
theorem history_roundtrip_witness :
    7 < 65536 ∧
    ∃ r2, newReplica 7 (history tombR) = .ok r2 ∧
      projNodes r2.nodes = projNodes tombR.nodes ∧ text r2 = text tombR :=
  ⟨by decide, history_roundtrip tombR 7 (by decide)⟩

/-- Claim C9: the two-argument `getRowColumnAfter(t, wt)` of the
`AceEditorRGA` variant returns the row/column reached by counting the
non-removed atoms of the first `p` nodes (up to and including the
predecessor node resolved from `t`) and then additionally of every
already-present successor whose timestamp exceeds the new timestamp `wt`,
a newline atom starting a new row at column zero. -/
theorem rowColAfter_walk (r : Replica) (t wt : Int) (pv : Option Nat) (p : Nat)
    (hl : r.leftRemoved = false)
    (hlk : idxLookup r.index t = some pv)
    (hpp : predPos r pv = .ok p) :
    getRowColumnAfter2 r t wt
      = .ok ((posRC (textNodes (r.nodes.take
            (p + skipBigger wt (r.nodes.drop p))))).1,
          ((posRC (textNodes (r.nodes.take
            (p + skipBigger wt (r.nodes.drop p))))).2 : Int)) := by
  have hrc : rcAfterLeft r = (0, ((0 : Nat) : Int)) := by
    rw [rcAfterLeft, hl]
    decide
  rw [getRowColumnAfter2, hlk]
  cases pv with
  | none =>
    simp only
    have h1 : Except.ok 0 = Except.ok p := hpp
    injection h1 with h2
    subst h2
    rw [rowColSkipWalk_eq, hrc, List.drop_zero, Nat.zero_add]
    exact congrArg Except.ok
      (advNodes_posRC (r.nodes.take (skipBigger wt r.nodes)) 0 0)
  | some u =>
    simp only
    have hpp2 : (match uidPos r.nodes u with
        | none => Except.error "internal: index uid not in the node list"
        | some i => Except.ok (i + 1)) = Except.ok p := hpp
    cases hup : uidPos r.nodes u with
    | none =>
      rw [hup] at hpp2
      exact Except.noConfusion hpp2
    | some i =>
      rw [hup] at hpp2
      simp only at hpp2
      injection hpp2 with h2
      subst h2
      rw [rowColAfterFind_eq r.nodes u i (rcAfterLeft r) hup]
      simp only
      rw [rowColSkipWalk_eq, ← advNodes_append, ← List.take_add, hrc]
      exact congrArg Except.ok
        (advNodes_posRC (r.nodes.take
          (i + 1 + skipBigger wt (r.nodes.drop (i + 1)))) 0 0)

/-- Claim C9 witness: on a replica holding one live `X` (timestamp 5),
inserting after the sentinel with new timestamp 3 walks past the
larger-timestamp sibling and lands at column 1. -/
theorem rowColAfter_walk_witness :
    (dupR2.leftRemoved = false ∧ idxLookup dupR2.index (-1) = some none ∧
      predPos dupR2 none = .ok 0) ∧
    getRowColumnAfter2 dupR2 (-1) 3
      = .ok ((posRC (textNodes (dupR2.nodes.take
            (0 + skipBigger 3 (dupR2.nodes.drop 0))))).1,
          ((posRC (textNodes (dupR2.nodes.take
            (0 + skipBigger 3 (dupR2.nodes.drop 0))))).2 : Int)) :=
  ⟨⟨rfl, by decide, by decide⟩,
    rowColAfter_walk dupR2 (-1) 3 none 0 rfl (by decide) (by decide)⟩

/-- Claim C9, counterexample for the cited `lib/rga.js` lines: that
variant of `getRowColumnAfter` takes only the predecessor timestamp and
performs no sibling walk — anchored on the sentinel next to a live
larger-timestamp `X`, it answers column 0 where the two-argument
`AceEditorRGA` helper (and the claim) answer column 1. -/
theorem rowColAfter_lib_no_walk :
    getRowColumnAfter dupR2 (-1) = .ok (0, 0) ∧
    getRowColumnAfter2 dupR2 (-1) 3 = .ok (0, 1) ∧
    getRowColumnAfter dupR2 (-1) ≠ getRowColumnAfter2 dupR2 (-1) 3 := by
  decide

/-- Claim C10: on a well-formed replica, for every character offset `k`
into the visible text, calling `insertRowColumn` at the row/column of
offset `k` (rows delimited by non-removed newline atoms, columns counted
in non-removed atoms) splices the typed string into the text exactly at
offset `k` — also when the insertion point sits next to tombstones. -/
theorem insertRowColumn_splice (r : Replica) (k : Nat) (s : List Char)
    (hwf : wellFormed r) (hk : k ≤ (text r).length) :
    ∃ r2, insertRowColumn r (posRC ((text r).take k)).1
        (posRC ((text r).take k)).2 s = .ok r2 ∧
      text r2 = (text r).take k ++ s ++ (text r).drop k := by
  obtain ⟨hidxL, hidxN, htsb, huidb⟩ := hwf
  obtain ⟨p, hple, hwalk, htake, hdrop⟩ :=
    getNodeAtAux_eq r.nodes k 0 0 (-1)
      (posRC ((text r).take k)).1 (posRC ((text r).take k)).2 hk rfl rfl
  have hrc : insertRowColumn r (posRC ((text r).take k)).1
      (posRC ((text r).take k)).2 s
      = insertChars r (if p = 0 then (-1 : Int)
          else (r.nodes.getD (p - 1) defaultNode).timestamp) s := by
    rw [insertRowColumn,
      show getNodeAtTs r (posRC ((text r).take k)).1
          (posRC ((text r).take k)).2
        = .ok (if p = 0 then (-1 : Int)
            else (r.nodes.getD (p - 1) defaultNode).timestamp) from hwalk]
  by_cases hp : p = 0
  · subst hp
    rw [if_pos rfl] at hrc
    obtain ⟨r2, happ, htext⟩ := insertChars_splice s r (-1) none 0
      hidxL rfl htsb huidb
    rw [htake, hdrop] at htext
    exact ⟨r2, hrc.trans happ, htext⟩
  · have hplt : p - 1 < r.nodes.length := by omega
    obtain ⟨hlkN, hupN⟩ := hidxN (p - 1) hplt
    have hppN : predPos r (some ((r.nodes.getD (p - 1) defaultNode).uid))
        = .ok p := by
      rw [@predPos_of_uidPos r ((r.nodes.getD (p - 1) defaultNode).uid)
        (p - 1) hupN]
      rw [show p - 1 + 1 = p from by omega]
    obtain ⟨r2, happ, htext⟩ := insertChars_splice s r
      ((r.nodes.getD (p - 1) defaultNode).timestamp)
      (some ((r.nodes.getD (p - 1) defaultNode).uid)) p hlkN hppN htsb huidb
    rw [htake, hdrop] at htext
    rw [if_neg hp] at hrc
    exact ⟨r2, hrc.trans happ, htext⟩

/-- Claim C10 witness: on the one-character replica (visible text `X`),
typing `ab` at the row/column of offset 1 yields `Xab`. -/
theorem insertRowColumn_splice_witness :
    (wellFormed dupR2 ∧ 1 ≤ (text dupR2).length) ∧
    ∃ r2, insertRowColumn dupR2 (posRC ((text dupR2).take 1)).1
        (posRC ((text dupR2).take 1)).2 ('a' :: 'b' :: []) = .ok r2 ∧
      text r2 = (text dupR2).take 1 ++ ('a' :: 'b' :: [])
        ++ (text dupR2).drop 1 :=
  ⟨⟨by unfold wellFormed; decide, by decide⟩,
    insertRowColumn_splice dupR2 1 ('a' :: 'b' :: [])
      (by unfold wellFormed; decide) (by decide)⟩

/-- Claim C6: the diff engine round-trips — `diff(s, s)` is the empty
patch, and for any two strings the patch `diff(s0, s1)` is produced
without error and, under the claimed op semantics (`retain n` copies the
next `n` input characters, `delete n` skips them, `insert str` emits
`str`, leftover input is kept), applying it to `s0` yields exactly `s1`. -/
theorem diff_roundtrip (s0 s1 : List Char) :
    diff s0 s0 = .ok [] ∧
    ∃ p, diff s0 s1 = .ok p ∧ applyPatch p s0 = s1 := by
  constructor
  · rw [diff, comparePatch]
    exact comparePatchF_self s0.length s0
  · by_cases hne : s0 = s1
    · subst hne
      refine ⟨[], ?_, rfl⟩
      rw [diff, comparePatch]
      exact comparePatchF_self s0.length s0
    · obtain ⟨p, hp, hrun⟩ := comparePatchF_correct (s0.length + 1) s0 s1
        (by omega) hne
      refine ⟨p, ?_, ?_⟩
      · rw [diff, comparePatch]
        exact hp
      · have h0 := hrun []
        rw [List.append_nil] at h0
        rw [applyPatch_runPatch, h0]
        exact List.append_nil s1

end Peeredit
